import Mathlib

/-!
Verification of the story-ordering resolver of the astrhtml repository
(src/lib/stage_parser.py and src/lib/wordcount_parser.py).

The Python code is embedded shallowly:
* Python `dict`s (which preserve insertion order and have unique keys) are
  modelled as association lists `List (String × α)` with update-in-place
  assignment (`alSet`) and first-match lookup (`alGet`).
* Python strings are Lean `String`s, but every operation used by the code
  (`replace`, `split`, `in`, `startswith`, `upper`, slicing, `int(...)`,
  `zfill`) is re-implemented on `List Char` by structural or fuel-bounded
  recursion so that all definitions evaluate inside the kernel.  The
  inputs handled by the program are ASCII, where these models agree with
  Python's Unicode-aware versions.
* The regular expressions used by the code (`(.+)_st(\d+)`,
  `(.+)_sub-(\d+)-(\d+)`, `(.+)_hidden_st(\d+)`, `level_(.+)_st(\d+)\.json$`)
  are modelled by explicit greedy matchers: `re.match` anchors at the start,
  a greedy `(.+)` selects the rightmost position at which the remainder of
  the pattern matches, and `\d+` takes the maximal digit run.
* The single statement of the resolver that can raise an uncaught exception
  (an unguarded `int(...)` conversion in the leftover sweep) is modelled by
  `Except String`; everything else is total.
-/

namespace AstrHtml

/-! ### Python-style string primitives (on `List Char`) -/

/-- Occurrence scan used by `containsList`: does `pat` occur in the list? -/
def containsGo (pat : List Char) : List Char → Bool
  | [] => false
  | c :: cs => pat.isPrefixOf (c :: cs) || containsGo pat cs

/-- Python `pat in s` (substring containment; `'' in s` is `True`). -/
def containsList (s pat : List Char) : Bool :=
  if pat.isEmpty then true else containsGo pat s

/-- Python `pat in s` on strings. -/
def pyContains (s pat : String) : Bool := containsList s.data pat.data

/-- Fuel-bounded body of Python `str.replace`: replaces every non-overlapping
occurrence of `pat`, scanning left to right.  Each step consumes at least one
character, so fuel `s.length` suffices. -/
def replaceFuel (pat rep : List Char) : Nat → List Char → List Char
  | 0, s => s
  | fuel+1, s =>
    if !pat.isEmpty && pat.isPrefixOf s then
      rep ++ replaceFuel pat rep fuel (s.drop pat.length)
    else
      match s with
      | [] => []
      | c :: cs => c :: replaceFuel pat rep fuel cs

/-- Python `s.replace(pat, rep)` (all occurrences; every call site in the
source uses a non-empty `pat`). -/
def pyReplace (s pat rep : String) : String :=
  ⟨replaceFuel pat.data rep.data s.data.length s.data⟩

/-- Split off the part of the list before the first occurrence of `sep`,
together with the part after it (`none` when `sep` does not occur). -/
def breakOn (sep : List Char) : List Char → Option (List Char × List Char)
  | [] => none
  | c :: cs =>
    if sep.isPrefixOf (c :: cs) then some ([], (c :: cs).drop sep.length)
    else
      match breakOn sep cs with
      | some r => some (c :: r.1, r.2)
      | none => none

/-- Fuel-bounded body of Python `str.split(sep)` for non-empty `sep`
(keeps empty pieces, no merging).  Each step consumes at least `sep.length`
characters, so fuel `s.length + 1` suffices. -/
def splitFuel (sep : List Char) : Nat → List Char → List (List Char)
  | 0, s => [s]
  | fuel+1, s =>
    match breakOn sep s with
    | none => [s]
    | some r => r.1 :: splitFuel sep fuel r.2

/-- Python `s.split(sep)` (all call sites use a non-empty separator). -/
def pySplit (s sep : String) : List String :=
  (splitFuel sep.data (s.data.length + 1) s.data).map (fun l => ⟨l⟩)

/-- Python `s.split(sep)[-1]` (the split list is never empty). -/
def lastPart (s sep : String) : String := (pySplit s sep).getLastD ""

/-- Python `s.startswith(p)`. -/
def pyStartsWith (s p : String) : Bool := p.data.isPrefixOf s.data

/-- Python `s.endswith(p)`. -/
def pyEndsWith (s p : String) : Bool := p.data.isSuffixOf s.data

/-- Python `s.upper()` (ASCII; all data handled by the program is ASCII). -/
def pyUpper (s : String) : String := ⟨s.data.map Char.toUpper⟩

/-- Numeric value of a digit run (used only on `\d+` regex groups). -/
def natOfDigits (l : List Char) : Nat :=
  l.foldl (fun n c => n * 10 + (c.toNat - 48)) 0

/-- Python `s.isdigit()` for ASCII data: non-empty and all ASCII digits. -/
def isDigitString (s : String) : Bool :=
  !s.data.isEmpty && s.data.all Char.isDigit

/-- Python `int(s)` as an `Option`: optional sign followed by a non-empty
digit run (the program's data never carries whitespace or underscores). -/
def pyIntOpt (s : String) : Option Int :=
  match s.data with
  | '-' :: rest =>
    if !rest.isEmpty && rest.all Char.isDigit then some (-(natOfDigits rest : Int)) else none
  | '+' :: rest =>
    if !rest.isEmpty && rest.all Char.isDigit then some ((natOfDigits rest : Int)) else none
  | l => if !l.isEmpty && l.all Char.isDigit then some ((natOfDigits l : Int)) else none

/-- Python `s.zfill(2)` for the digit runs the code applies it to. -/
def zfillTwo (s : String) : String :=
  if s.data.length ≥ 2 then s else ⟨List.replicate (2 - s.data.length) '0' ++ s.data⟩

/-- Code-point comparison of character lists (Python string `<`). -/
def charsLt : List Char → List Char → Bool
  | [], [] => false
  | [], _ :: _ => true
  | _ :: _, [] => false
  | a :: as, b :: bs => if a < b then true else if b < a then false else charsLt as bs

/-- Python string `<` (lexicographic by code point). -/
def strLtB (a b : String) : Bool := charsLt a.data b.data

/-! ### Greedy regex matchers -/

/-- Maximal digit run at the front of the list, with the remainder. -/
def takeDigits : List Char → List Char × List Char
  | [] => ([], [])
  | c :: cs =>
    if c.isDigit then
      let r := takeDigits cs
      (c :: r.1, r.2)
    else ([], c :: cs)

/-- Does `s` start with `sep` followed by at least one digit?  Returns the
maximal digit run after `sep` if so. -/
def sepNumHere (sep s : List Char) : Option (List Char) :=
  if sep.isPrefixOf s then
    let d := (takeDigits (s.drop sep.length)).1
    if d.isEmpty then none else some d
  else none

/-- Rightmost-split matcher for Python `re.match(r'(.+)SEP(\d+)', s)`:
the greedy `(.+)` picks the longest non-empty group 1 such that `SEP` and a
digit follow; `\d+` is the maximal digit run there.  Trailing characters are
allowed (`re.match` has no end anchor). -/
def matchTailNumAux (sep acc : List Char) : List Char → Option (List Char × List Char)
  | [] => none
  | c :: cs =>
    match matchTailNumAux sep (acc ++ [c]) cs with
    | some r => some r
    | none =>
      if acc.isEmpty then none
      else
        match sepNumHere sep (c :: cs) with
        | some d => some (acc, d)
        | none => none

/-- `re.match(r'(.+)SEP(\d+)', s)`, returning groups 1 and 2. -/
def matchTailNum (sep s : String) : Option (String × String) :=
  match matchTailNumAux sep.data [] s.data with
  | some r => some (⟨r.1⟩, ⟨r.2⟩)
  | none => none

/-- Does `s` start with `_sub-`, digits, `-`, digits?  Returns the two
maximal digit runs if so. -/
def subHere (s : List Char) : Option (List Char × List Char) :=
  if ("_sub-").data.isPrefixOf s then
    let r1 := takeDigits (s.drop 5)
    if r1.1.isEmpty then none
    else
      match r1.2 with
      | '-' :: r2 =>
        let d2 := (takeDigits r2).1
        if d2.isEmpty then none else some (r1.1, d2)
      | _ => none
  else none

/-- Rightmost-split core of `re.match(r'(.+)_sub-(\d+)-(\d+)', s)`. -/
def matchSubAux (acc : List Char) : List Char → Option (List Char × List Char × List Char)
  | [] => none
  | c :: cs =>
    match matchSubAux (acc ++ [c]) cs with
    | some r => some r
    | none =>
      if acc.isEmpty then none
      else
        match subHere (c :: cs) with
        | some r => some (acc, r.1, r.2)
        | none => none

/-- `re.match(r'(.+)_sub-(\d+)-(\d+)', s)`, returning the three groups. -/
def matchSubPattern (s : String) : Option (String × String × String) :=
  match matchSubAux [] s.data with
  | some r => some (⟨r.1⟩, ⟨r.2.1⟩, ⟨r.2.2⟩)
  | none => none

/-- Rightmost split of `mid` as `group1 ++ "_st" ++ digits` where the digits
are non-empty and run to the very end (used by the end-anchored pattern). -/
def stAllDigitsAux (acc : List Char) : List Char → Option (List Char × List Char)
  | [] => none
  | c :: cs =>
    match stAllDigitsAux (acc ++ [c]) cs with
    | some r => some r
    | none =>
      if acc.isEmpty then none
      else if ("_st").data.isPrefixOf (c :: cs) then
        let d := (c :: cs).drop 3
        if !d.isEmpty && d.all Char.isDigit then some (acc, d) else none
      else none

/-- `re.match(r'level_(.+)_st(\d+)\.json$', f)`, returning groups 1 and 2.
With the end anchor, `\d+` must cover everything up to `.json`. -/
def matchLevelStJson (f : String) : Option (String × String) :=
  let d := f.data
  if ("level_").data.isPrefixOf d then
    let rest := d.drop 6
    if (".json").data.isSuffixOf rest then
      let mid := rest.take (rest.length - 5)
      match stAllDigitsAux [] mid with
      | some r => some (⟨r.1⟩, ⟨r.2⟩)
      | none => none
    else none
  else none

/-! ### Natural sorting (`natural_sort_key`) -/

/-- Fuel-bounded body of `re.split('([0-9]+)', text)`: alternating non-digit
and digit pieces, keeping empty boundary pieces.  Each recursive step
consumes at least one character (a non-empty digit run). -/
def splitDGFuel : Nat → List Char → List (List Char)
  | 0, s => [s]
  | fuel+1, s =>
    let t := s.takeWhile (fun c => !c.isDigit)
    let r := s.dropWhile (fun c => !c.isDigit)
    if r.isEmpty then [t]
    else t :: r.takeWhile Char.isDigit :: splitDGFuel fuel (r.dropWhile Char.isDigit)

/-- `re.split('([0-9]+)', text)`. -/
def splitDG (s : List Char) : List (List Char) := splitDGFuel (s.length + 1) s

/-- A piece of a natural-sort key: Python's `convert` maps digit runs to
`int` and everything else to a lower-cased string. -/
inductive NKey where
  | str (v : List Char)
  | num (v : Nat)
deriving DecidableEq, Repr

/-- The `convert` helper of `natural_sort_key`. -/
def nkeyOfPiece (piece : List Char) : NKey :=
  if !piece.isEmpty && piece.all Char.isDigit then .num (natOfDigits piece)
  else .str (piece.map Char.toLower)

/-- Comparison of key pieces.  Mixed `str`/`num` comparison raises
`TypeError` in Python; it is unreachable here because every key alternates
string pieces (even positions) and numeric pieces (odd positions), so the
mixed cases may be given an arbitrary value. -/
def nkeyLtB : NKey → NKey → Bool
  | .str a, .str b => charsLt a b
  | .num a, .num b => decide (a < b)
  | _, _ => false

/-- Python list `<` on key lists (lexicographic, a strict prefix is smaller). -/
def keyLtB : List NKey → List NKey → Bool
  | [], [] => false
  | [], _ :: _ => true
  | _ :: _, [] => false
  | a :: as, b :: bs => if nkeyLtB a b then true else if nkeyLtB b a then false else keyLtB as bs

/-- `natural_sort_key` from stage_parser.py. -/
def natural_sort_key (text : String) : List NKey :=
  (splitDG text.data).map nkeyOfPiece

/-- Stable insertion used by `sortLt`: `x` is placed before the first
element not strictly smaller than it. -/
def insertLt (lt : α → α → Bool) (x : α) : List α → List α
  | [] => [x]
  | y :: ys => if lt y x then y :: insertLt lt x ys else x :: y :: ys

/-- Stable sort by a strict comparison; agrees with Python's stable `sort`
whenever `lt` is a strict weak order on the values compared. -/
def sortLt (lt : α → α → Bool) : List α → List α
  | [] => []
  | x :: xs => insertLt lt x (sortLt lt xs)

/-- Python `sorted(l, key=natural_sort_key)`. -/
def sortNatural (l : List String) : List String :=
  sortLt (fun a b => keyLtB (natural_sort_key a) (natural_sort_key b)) l

/-- Python `sorted(l)` / `l.sort()` on strings. -/
def sortLex (l : List String) : List String := sortLt strLtB l

/-! ### Association lists (Python dicts) -/

/-- First-match lookup (Python dict lookup; keys are unique in a dict). -/
def alGet (l : List (String × α)) (k : String) : Option α :=
  match l with
  | [] => none
  | p :: rest => if p.1 = k then some p.2 else alGet rest k

/-- Python `d.get(k, dflt)`. -/
def alGetD (l : List (String × α)) (k : String) (dflt : α) : α := (alGet l k).getD dflt

/-- Python `k in d`. -/
def alHasKey (l : List (String × α)) (k : String) : Bool := (alGet l k).isSome

/-- Python `d[k] = v`: update the first binding in place, else append. -/
def alSet (l : List (String × α)) (k : String) (v : α) : List (String × α) :=
  match l with
  | [] => [(k, v)]
  | p :: rest => if p.1 = k then (k, v) :: rest else p :: alSet rest k v

/-- Keys of an association list, in order. -/
def alKeys (l : List (String × α)) : List String := l.map Prod.fst

/-- Keep the first occurrence of every element (relative order preserved),
skipping elements already in `seen`. -/
def dedupFirstAux (seen : List String) : List String → List String
  | [] => []
  | x :: xs =>
    if seen.contains x then dedupFirstAux seen xs
    else x :: dedupFirstAux (x :: seen) xs

/-! ### Data model (stage_parser.py) -/

/-- `StageUnlockCondition` dataclass. -/
structure StageUnlockCondition where
  stage_id : String
  complete_state : String
deriving DecidableEq, Repr

/-- `StageInfo` dataclass. -/
structure StageInfo where
  stage_id : String
  code : String
  name : String
  stage_type : String
  danger_level : String
  unlock_conditions : List StageUnlockCondition
  zone_id : String
  level_id : Option String := none
deriving DecidableEq, Repr

/-- The stage table: a Python dict `stage_id -> StageInfo` in insertion order. -/
abbrev StageTable := List (String × StageInfo)

/-- One element of the resolver output: `(file_name, stage_info, is_battle_story)`. -/
abbrev Entry := String × StageInfo × Bool

/-- `build_stage_dependency_graph`: for each stage, its unlock dependencies
restricted to stages present in the table. -/
def build_stage_dependency_graph (stages : StageTable) : List (String × List String) :=
  stages.map (fun p =>
    (p.1, (p.2.unlock_conditions.map (fun c => c.stage_id)).filter (fun d => alHasKey stages d)))

/-- `is_ministory_story_file`: `re.match(r'level_.+_st\d+\.json$', file_name)`. -/
def is_ministory_story_file (file_name : String) : Bool :=
  (matchLevelStJson file_name).isSome

/-- `get_ministory_stages`: virtual story-only stages for MINISTORY events. -/
def get_ministory_stages (event_id : String) (story_files : List String) :
    List (String × StageInfo) :=
  let story_files_sorted := sortLex (story_files.filter is_ministory_story_file)
  story_files_sorted.flatMap (fun file_name =>
    match matchLevelStJson file_name with
    | some r =>
      [(file_name,
        { stage_id := r.1 ++ "_st" ++ r.2
          code := "ST-" ++ toString (natOfDigits r.2.data)
          name := "シナリオ " ++ toString (natOfDigits r.2.data)
          stage_type := "MINISTORY_STORY"
          danger_level := ""
          unlock_conditions := []
          zone_id := event_id ++ "_zone1" })]
    | none => [])

/-- `handle_type_act4d0_events` (act4d0 / act6d5 / act7d5): keeps only
`level_<event_id>_st*.json` files and synthesizes virtual story stages.
The `event_stages` argument is unused, as in the source. -/
def handle_type_act4d0_events (event_id : String) (event_stages : StageTable)
    (story_files : List String) : List Entry :=
  let _ := event_stages
  let story_json_files := story_files.filter (fun f =>
    pyStartsWith f ("level_" ++ event_id ++ "_st") && pyEndsWith f ".json")
  (sortLex story_json_files).flatMap (fun story_file =>
    match matchLevelStJson story_file with
    | some r =>
      [(story_file,
        { stage_id := event_id ++ "_st" ++ r.2
          code := "ST-" ++ toString (natOfDigits r.2.data)
          name := "シナリオ " ++ toString (natOfDigits r.2.data)
          stage_type := "TYPE_ACT4D0_STORY"
          danger_level := ""
          unlock_conditions := []
          zone_id := event_id ++ "_zone1" }, false)]
    | none => [])

/-- `get_event_related_stages`: the event's candidate stage pool. -/
def get_event_related_stages (event_id : String) (stages : StageTable) : StageTable :=
  stages.filter (fun p =>
    pyStartsWith p.1 event_id
    || pyContains (pyUpper (p.2.level_id.getD "")) (pyUpper event_id)
    || (event_id == "act3d0" && pyStartsWith p.1 "a003_")
    || (event_id == "act4d0" && pyStartsWith p.1 "a004_"))

/-! ### Filename classification -/

/-- `file_name.replace('level_', '').replace('.json', '')`. -/
def cleanBaseName (file_name : String) : String :=
  pyReplace (pyReplace file_name "level_" "") ".json" ""

/-- The classification block of `get_story_order_for_event` (lines 539-603):
maps a story filename to `(stage_id, story_type)`, before the event-specific
stage-id transformation step. -/
def classifyBase (event_id : String) (event_type : Option String) (file_name : String) :
    String × String :=
  let base_name := cleanBaseName file_name
  if pyContains base_name "_beg" then (pyReplace base_name "_beg" "", "beg")
  else if pyContains base_name "_end" then
    let sid0 := pyReplace base_name "_end" ""
    let sid :=
      match matchSubPattern sid0 with
      | some r => r.1 ++ "_s" ++ zfillTwo r.2.2
      | none => sid0
    (sid, "end")
  else
    let sid0 :=
      if event_type == some "MINISTORY" && pyContains base_name "_st" then
        match matchTailNum "_st" base_name with
        | some r => r.1 ++ "_" ++ r.2
        | none => base_name
      else base_name
    if pyContains base_name "_hidden_st" then
      match matchTailNum "_hidden_st" base_name with
      | some r => ("story_" ++ toString ((natOfDigits r.2.data : Int) - 1), "story")
      | none => (sid0, "story")
    else if pyContains base_name "_st" && !(event_type == some "MINISTORY") then
      match matchTailNum "_st" base_name with
      | some r =>
        if event_id == "act4d0" || event_id == "act6d5" || event_id == "act7d5" then
          (r.1 ++ "_" ++ zfillTwo r.2, "story")
        else
          (r.1 ++ "_st" ++ zfillTwo r.2, "story")
      | none => (sid0, "story")
    else (sid0, "story")

/-- The stage-id transformation step (`act3d0_* -> a003_*`). -/
def applyStageIdTransform (event_id : String) (m : String × String) : String × String :=
  if event_id == "act3d0" then (pyReplace m.1 "act3d0_" "a003_", m.2) else m

/-- Full per-file mapping of `get_story_order_for_event`. -/
def classifyMain (event_id : String) (event_type : Option String) (file_name : String) :
    String × String :=
  applyStageIdTransform event_id (classifyBase event_id event_type file_name)

/-- The classification block of `get_remaining_story_files_with_proper_mapping`
(lines 227-272): identical to `classifyBase` except that it lacks the
MINISTORY `st`-removal variant for story-only files. -/
def classifyRemainingBase (event_id : String) (event_type : Option String)
    (file_name : String) : String × String :=
  let base_name := cleanBaseName file_name
  if pyContains base_name "_beg" then (pyReplace base_name "_beg" "", "beg")
  else if pyContains base_name "_end" then
    let sid0 := pyReplace base_name "_end" ""
    let sid :=
      match matchSubPattern sid0 with
      | some r => r.1 ++ "_s" ++ zfillTwo r.2.2
      | none => sid0
    (sid, "end")
  else
    if pyContains base_name "_hidden_st" then
      match matchTailNum "_hidden_st" base_name with
      | some r => ("story_" ++ toString ((natOfDigits r.2.data : Int) - 1), "story")
      | none => (base_name, "story")
    else if pyContains base_name "_st" && !(event_type == some "MINISTORY") then
      match matchTailNum "_st" base_name with
      | some r =>
        if event_id == "act4d0" || event_id == "act6d5" || event_id == "act7d5" then
          (r.1 ++ "_" ++ zfillTwo r.2, "story")
        else
          (r.1 ++ "_st" ++ zfillTwo r.2, "story")
      | none => (base_name, "story")
    else (base_name, "story")

/-- Per-file mapping of the remaining-files path. -/
def classifyRemaining (event_id : String) (event_type : Option String) (file_name : String) :
    String × String :=
  applyStageIdTransform event_id (classifyRemainingBase event_id event_type file_name)

/-- `story_stage_mapping` of `get_story_order_for_event` as a Python dict. -/
def buildMapping (event_id : String) (event_type : Option String) (story_files : List String) :
    List (String × String × String) :=
  story_files.foldl (fun m f => alSet m f (classifyMain event_id event_type f)) []

/-- `story_stage_mapping` of `get_remaining_story_files_with_proper_mapping`. -/
def buildRemainingMapping (event_id : String) (event_type : Option String)
    (story_files : List String) : List (String × String × String) :=
  story_files.foldl (fun m f => alSet m f (classifyRemaining event_id event_type f)) []

/-! ### Topological sort (`topological_sort`, Kahn's algorithm)

The Python `while queue:` loop is modelled with explicit fuel.  The chosen
fuel (`sumPos` of the initial in-degrees plus the initial queue length) is an
upper bound on the number of iterations: every iteration strictly decreases
`sumPos indeg + queue.length`, which is proved below and yields a
fuel-stability theorem (adding fuel does not change the result). -/

/-- The in-degree increment loop: `in_degree[dep] += 1` for each dependency
present in the dict. -/
def incrAll (indeg : List (String × Int)) : List String → List (String × Int)
  | [] => indeg
  | d :: ds =>
    match alGet indeg d with
    | some v => incrAll (alSet indeg d (v + 1)) ds
    | none => incrAll indeg ds

/-- Initial in-degree dict: `{node: 0 for node in graph}` followed by the
increment loop over every edge. -/
def initInDegree (graph : List (String × List String)) : List (String × Int) :=
  graph.foldl (fun acc p => incrAll acc p.2) (graph.map (fun p => (p.1, (0 : Int))))

/-- The dependency-processing loop of one iteration: decrement each
dependency's in-degree, queueing those that reach exactly zero, in order. -/
def stepDeps (indeg : List (String × Int)) : List String → List (String × Int) × List String
  | [] => (indeg, [])
  | d :: ds =>
    match alGet indeg d with
    | some v =>
      let r := stepDeps (alSet indeg d (v - 1)) ds
      (r.1, (if v - 1 = 0 then [d] else []) ++ r.2)
    | none => stepDeps indeg ds

/-- The `while queue:` loop (fuel-bounded). -/
def topoLoop (graph : List (String × List String)) :
    Nat → List (String × Int) → List String → List String → List String
  | 0, _, _, result => result
  | fuel+1, indeg, queue, result =>
    match queue with
    | [] => result
    | node :: rest =>
      let r := stepDeps indeg (alGetD graph node [])
      topoLoop graph fuel r.1 (rest ++ r.2) (result ++ [node])

/-- Sum of the positive parts of the in-degrees (the loop variant). -/
def sumPos (indeg : List (String × Int)) : Nat := (indeg.map (fun p => p.2.toNat)).sum

/-- Initial in-degree dict of `topological_sort`. -/
def topoInitIndeg (graph : List (String × List String)) : List (String × Int) :=
  initInDegree graph

/-- Initial queue of `topological_sort`: nodes of in-degree zero, in dict order. -/
def topoInitQueue (graph : List (String × List String)) : List String :=
  ((topoInitIndeg graph).filter (fun p => p.2 = 0)).map Prod.fst

/-- Fuel used by the embedded loop; exceeds the iteration count. -/
def topoFuel (graph : List (String × List String)) : Nat :=
  sumPos (topoInitIndeg graph) + (topoInitQueue graph).length

/-- `topological_sort` from stage_parser.py. -/
def topological_sort (graph : List (String × List String)) : List String :=
  topoLoop graph (topoFuel graph) (topoInitIndeg graph) (topoInitQueue graph) []

/-! ### The graph-based ordering of `get_story_order_for_event` -/

/-- Lines 619-640: topological order (reversed), with the natural-sort
adjustments for dependency-free stages. -/
def computeOrderedStages (event_stages : StageTable) : List String :=
  let dependency_graph := build_stage_dependency_graph event_stages
  let ordered0 := (topological_sort dependency_graph).reverse
  let stages_with_no_deps := (dependency_graph.filter (fun p => p.2.isEmpty)).map Prod.fst
  let stages_with_deps := (dependency_graph.filter (fun p => !p.2.isEmpty)).map Prod.fst
  if !stages_with_no_deps.isEmpty && !stages_with_deps.isEmpty then
    sortNatural stages_with_no_deps ++ ordered0.filter (fun s => stages_with_deps.contains s)
  else if stages_with_deps.isEmpty then
    sortNatural (event_stages.map Prod.fst)
  else ordered0

/-! ### Emission of stage-ordered entries (lines 643-688) -/

/-- The mapping entries whose stage id equals `stage_id`, in dict order. -/
def stageMatches (mapping : List (String × String × String)) (stage_id : String) :
    List (String × String × String) :=
  mapping.filter (fun m => m.2.1 == stage_id)

/-- The `beg_file` selected for a stage (the last matching file wins). -/
def begFileOf (mapping : List (String × String × String)) (stage_id : String) : Option String :=
  (((stageMatches mapping stage_id).filter (fun m => m.2.2 == "beg")).map Prod.fst).getLast?

/-- The `end_file` selected for a stage (the last matching file wins). -/
def endFileOf (mapping : List (String × String × String)) (stage_id : String) : Option String :=
  (((stageMatches mapping stage_id).filter (fun m => m.2.2 == "end")).map Prod.fst).getLast?

/-- The `story_only_file` seen for a stage (the last matching file). -/
def storyFileOf (mapping : List (String × String × String)) (stage_id : String) : Option String :=
  (((stageMatches mapping stage_id).filter (fun m => m.2.2 == "story")).map Prod.fst).getLast?

/-- The story-only entries appended for a stage, one per matching file, in
dict order (every match is appended immediately during the scan). -/
def storyEntriesOf (mapping : List (String × String × String)) (stage_id : String)
    (info : StageInfo) : List Entry :=
  ((stageMatches mapping stage_id).filter (fun m => m.2.2 == "story")).map (fun m => (m.1, info, false))

/-- The entries emitted for one sequenced stage: its story-only files, then
its pre-battle file, then its post-battle file, then (for the two known
act9d0 stages with no files at all) a virtual post-battle placeholder. -/
def emitForStage (event_id : String) (mapping : List (String × String × String))
    (stage_id : String) (info : StageInfo) : List Entry :=
  storyEntriesOf mapping stage_id info
  ++ (match begFileOf mapping stage_id with
      | some f => [(f, info, true)]
      | none => [])
  ++ (match endFileOf mapping stage_id with
      | some f => [(f, info, true)]
      | none => [])
  ++ (if (begFileOf mapping stage_id).isNone && (endFileOf mapping stage_id).isNone
        && (storyFileOf mapping stage_id).isNone && event_id == "act9d0"
        && (stage_id == "act9d0_07" || stage_id == "act9d0_08")
      then [("virtual_" ++ stage_id ++ "_end", info, true)]
      else [])

/-- The emission loop over the sequenced stages. -/
def emitStages (event_id : String) (event_stages : StageTable)
    (mapping : List (String × String × String)) (ordered : List String) : List Entry :=
  ordered.flatMap (fun stage_id =>
    match alGet event_stages stage_id with
    | some info => emitForStage event_id mapping stage_id info
    | none => [])

/-! ### Leftover sweep (lines 690-766) and the wordcount remaining path -/

/-- The virtual stage record used by both leftover paths. -/
def mkVirtualHidden (event_id mapped_stage_id vcode : String) : StageInfo :=
  { stage_id := mapped_stage_id, code := vcode, name := "隠しストーリー"
    stage_type := "HIDDEN_STORY", danger_level := "", unlock_conditions := []
    zone_id := event_id ++ "_zone1" }

/-- The `S`-branch virtual display code: event code start taken from the
first pool stage whose code contains a dash (default `TW`), then
`<start>-ST-<n>` when the tail parses as an int, else `<start>-S<tail>`. -/
def virtualCodeSBranch (event_stages : StageTable) (code0 : String) : String :=
  let codeStart :=
    match event_stages.find? (fun p => !p.2.code.data.isEmpty && pyContains p.2.code "-") with
    | some p => (pySplit p.2.code "-").headD ""
    | none => "TW"
  let stage_num : String := ⟨code0.data.drop 1⟩
  match pyIntOpt stage_num with
  | some n => codeStart ++ "-ST-" ++ toString n
  | none => codeStart ++ "-S" ++ stage_num

/-- One leftover file's entry in `get_story_order_for_event` (lines 701-766).
The `story_`-branch performs an unguarded `int(...)`, which raises
`ValueError` when the key's tail is not an integer literal; this is the only
exception the resolver can raise and is modelled with `Except`. -/
def leftoverEntry (event_id : String) (event_stages : StageTable)
    (mapping : List (String × String × String)) (file_name : String) : Except String Entry :=
  match alGet mapping file_name with
  | some mt =>
    let is_battle := mt.2 == "beg" || mt.2 == "end"
    match alGet event_stages mt.1 with
    | some info => .ok (file_name, info, is_battle)
    | none =>
      let code0 := pyUpper (lastPart mt.1 "_")
      if pyStartsWith code0 "S" then
        .ok (file_name, mkVirtualHidden event_id mt.1 (virtualCodeSBranch event_stages code0), is_battle)
      else if pyStartsWith mt.1 "story_" then
        match pyIntOpt (lastPart mt.1 "_") with
        | some n => .ok (file_name, mkVirtualHidden event_id mt.1 ("逆行" ++ toString (n + 1)), is_battle)
        | none => .error "ValueError"
      else
        .ok (file_name, mkVirtualHidden event_id mt.1 code0, is_battle)
  | none =>
    let base_name := cleanBaseName file_name
    .ok (file_name,
      { stage_id := base_name, code := pyUpper (lastPart base_name "_"), name := "ストーリー"
        stage_type := "UNKNOWN", danger_level := "", unlock_conditions := []
        zone_id := event_id ++ "_zone1" }, false)

/-- One remaining file's entry in
`get_remaining_story_files_with_proper_mapping` (lines 283-348).  Same as
`leftoverEntry` up to the order of the `story_` and `S` branches and the
fallback battle flag. -/
def remainingEntry (event_id : String) (event_stages : StageTable)
    (mapping : List (String × String × String)) (file_name : String) : Except String Entry :=
  match alGet mapping file_name with
  | some mt =>
    let is_battle := mt.2 == "beg" || mt.2 == "end"
    match alGet event_stages mt.1 with
    | some info => .ok (file_name, info, is_battle)
    | none =>
      let code0 := pyUpper (lastPart mt.1 "_")
      if pyStartsWith mt.1 "story_" then
        match pyIntOpt (lastPart mt.1 "_") with
        | some n => .ok (file_name, mkVirtualHidden event_id mt.1 ("逆行" ++ toString (n + 1)), is_battle)
        | none => .error "ValueError"
      else if pyStartsWith code0 "S" then
        .ok (file_name, mkVirtualHidden event_id mt.1 (virtualCodeSBranch event_stages code0), is_battle)
      else
        .ok (file_name, mkVirtualHidden event_id mt.1 code0, is_battle)
  | none =>
    let base_name := cleanBaseName file_name
    .ok (file_name,
      { stage_id := base_name, code := pyUpper (lastPart base_name "_"), name := "ストーリー"
        stage_type := "UNKNOWN", danger_level := "", unlock_conditions := []
        zone_id := event_id ++ "_zone1" },
      pyContains base_name "_beg" || pyContains base_name "_end")

/-- A Python `for` loop appending one entry per file, propagating the first
uncaught exception. -/
def appendEntriesM (step : String → Except String Entry) :
    List String → List Entry → Except String (List Entry)
  | [], acc => .ok acc
  | f :: fs, acc =>
    match step f with
    | .ok e => appendEntriesM step fs (acc ++ [e])
    | .error msg => .error msg

/-- `get_remaining_story_files_with_proper_mapping`. -/
def get_remaining_story_files_with_proper_mapping (event_id : String) (stages : StageTable)
    (remaining_files : List String) (ordered_stories : List Entry)
    (event_type : Option String) : Except String (List Entry) :=
  let event_stages := get_event_related_stages event_id stages
  let mapping := buildRemainingMapping event_id event_type remaining_files
  appendEntriesM (remainingEntry event_id event_stages mapping) remaining_files ordered_stories

/-! ### wordcount_parser.py -/

/-- `extract_story_filename_from_path`. -/
def extract_story_filename_from_path (path : String) : String :=
  let filename := (pySplit path "/").getLastD ""
  if pyStartsWith filename "level_" then ⟨filename.data.drop 6⟩ else filename

/-- `get_event_story_order`.  The manifest is modelled as the per-event
ordered list of path keys (the integer word counts play no role here). -/
def get_event_story_order (event_id : String)
    (wordcount_data : List (String × List String)) : List String :=
  match alGet wordcount_data event_id with
  | some paths => paths.map extract_story_filename_from_path
  | none => []

/-! ### `get_story_order_from_wordcount` -/

/-- The `story_file_map` dict: base name (and event-stripped short name)
to file name. -/
def buildStoryFileMap (event_id : String) (story_files : List String) :
    List (String × String) :=
  story_files.foldl (fun m f =>
    let base_name := cleanBaseName f
    let m := alSet m base_name f
    if pyStartsWith base_name (event_id ++ "_") then
      alSet m (⟨base_name.data.drop (event_id.data.length + 1)⟩) f
    else m) []

/-- The per-key matching of the wordcount loop (direct, `level_`-prefixed,
or event-stripped), independent of the loop state. -/
def wcResolve (event_id : String) (story_file_map : List (String × String))
    (story_files : List String) (wc_filename : String) : Option String :=
  match alGet story_file_map wc_filename with
  | some f => some f
  | none =>
    if story_files.contains ("level_" ++ wc_filename ++ ".json") then
      some ("level_" ++ wc_filename ++ ".json")
    else if pyStartsWith wc_filename (event_id ++ "_") then
      alGet story_file_map ⟨wc_filename.data.drop (event_id.data.length + 1)⟩
    else none

/-- The entry built for one matched file in the wordcount loop
(lines 403-471). -/
def wcEntry (event_id : String) (event_stages : StageTable) (matched_file : String) : Entry :=
  let base_name := cleanBaseName matched_file
  let r : String × Bool :=
    if pyContains base_name "_beg" then (pyReplace base_name "_beg" "", true)
    else if pyContains base_name "_end" then
      let sid0 := pyReplace base_name "_end" ""
      let sid :=
        match matchSubPattern sid0 with
        | some m => m.1 ++ "_s" ++ zfillTwo m.2.2
        | none => sid0
      (sid, true)
    else (base_name, false)
  let stage_id := if event_id == "act3d0" then pyReplace r.1 "act3d0_" "a003_" else r.1
  let info :=
    match alGet event_stages stage_id with
    | some si => si
    | none =>
      let cp : String × String :=
        if pyContains base_name "_st" then
          match matchTailNum "_st" base_name with
          | some m =>
            ("ST-" ++ toString (natOfDigits m.2.data), "シナリオ " ++ toString (natOfDigits m.2.data))
          | none => (pyUpper (lastPart base_name "_"), "ストーリー")
        else
          let parts := pySplit base_name "_"
          if parts.length > 1 then
            let c0 := pyUpper (parts.getLastD "")
            let c1 :=
              if isDigitString c0 then "OR-" ++ toString (natOfDigits c0.data)
              else if pyStartsWith c0 "EX" then "EX-" ++ (⟨c0.data.drop 2⟩ : String)
              else c0
            (c1, "ストーリー")
          else ("STORY", "ストーリー")
      { stage_id := stage_id, code := cp.1, name := cp.2, stage_type := "STORY"
        danger_level := "", unlock_conditions := [], zone_id := event_id ++ "_zone1" }
  (matched_file, info, r.2)

/-- The wordcount-order loop: returns the emitted entries and the processed
set (as a list, in processing order). -/
def wcLoop (event_id : String) (event_stages : StageTable)
    (story_file_map : List (String × String)) (story_files : List String) :
    List String → List String → List Entry × List String
  | [], processed => ([], processed)
  | wc :: rest, processed =>
    match wcResolve event_id story_file_map story_files wc with
    | some f =>
      if !f.data.isEmpty && !processed.contains f then
        let r := wcLoop event_id event_stages story_file_map story_files rest (processed ++ [f])
        (wcEntry event_id event_stages f :: r.1, r.2)
      else wcLoop event_id event_stages story_file_map story_files rest processed
    | none => wcLoop event_id event_stages story_file_map story_files rest processed

/-- `get_story_order_from_wordcount`. -/
def get_story_order_from_wordcount (event_id : String) (stages : StageTable)
    (story_files : List String) (wordcount_order : List String)
    (event_type : Option String) : Except String (List Entry) :=
  let event_stages := get_event_related_stages event_id stages
  let story_file_map := buildStoryFileMap event_id story_files
  let r := wcLoop event_id event_stages story_file_map story_files wordcount_order []
  let remaining_files := story_files.filter (fun f => !r.2.contains f)
  if remaining_files.isEmpty then .ok r.1
  else
    get_remaining_story_files_with_proper_mapping event_id stages
      (sortNatural remaining_files) r.1 event_type

/-! ### `get_story_order_for_event` -/

/-- `get_story_order_for_event`.  The wordcount manifest (read from disk in
the source) is passed explicitly; `event_type` is `Option` (`None` default). -/
def get_story_order_for_event (event_id : String) (stages : StageTable)
    (story_files : List String) (event_type : Option String)
    (wordcount_data : List (String × List String)) : Except String (List Entry) :=
  let wordcount_order := get_event_story_order event_id wordcount_data
  if !wordcount_order.isEmpty then
    get_story_order_from_wordcount event_id stages story_files wordcount_order event_type
  else if event_type == some "MINISTORY" then
    .ok ((get_ministory_stages event_id story_files).map (fun p => (p.1, p.2, false)))
  else
    let event_stages := get_event_related_stages event_id stages
    if event_id == "act4d0" || event_id == "act6d5" || event_id == "act7d5" then
      .ok (handle_type_act4d0_events event_id event_stages story_files)
    else
      let story_stage_mapping := buildMapping event_id event_type story_files
      let ordered_stages := computeOrderedStages event_stages
      let emitted := emitStages event_id event_stages story_stage_mapping ordered_stages
      let matched_files := emitted.map (fun e => e.1)
      let remaining_files := sortLex (story_files.filter (fun f => !matched_files.contains f))
      appendEntriesM (leftoverEntry event_id event_stages story_stage_mapping)
        remaining_files emitted

/-! ### `get_main_story_order_for_chapter` -/

/-- The chapter classification (main_/st_/spst_ files only; other files
receive no mapping entry at all). -/
def classifyChapter (file_name : String) : Option (String × String) :=
  let base_name := cleanBaseName file_name
  if pyStartsWith base_name "main_" then
    if pyContains base_name "_beg" then some (pyReplace base_name "_beg" "", "beg")
    else if pyContains base_name "_end" then some (pyReplace base_name "_end" "", "end")
    else none
  else if pyStartsWith base_name "st_" || pyStartsWith base_name "spst_" then
    some (base_name, "story")
  else none

/-- The chapter `story_stage_mapping` dict. -/
def buildChapterMapping (story_files : List String) : List (String × String × String) :=
  story_files.foldl (fun m f =>
    match classifyChapter f with
    | some r => alSet m f r
    | none => m) []

/-- The chapter's stage pool (`main_CC-`, `st_CC-`, `spst_CC-`). -/
def chapterStages (chapter : Nat) (stages : StageTable) : StageTable :=
  let cc := zfillTwo (toString chapter)
  stages.filter (fun p =>
    pyStartsWith p.1 ("main_" ++ cc ++ "-") || pyStartsWith p.1 ("st_" ++ cc ++ "-")
    || pyStartsWith p.1 ("spst_" ++ cc ++ "-"))

/-- The per-stage emission of the chapter variant (story entries during the
scan, then the pre-battle file, then the post-battle file; no virtual
placeholders). -/
def emitForStageMain (mapping : List (String × String × String)) (stage_id : String)
    (info : StageInfo) : List Entry :=
  storyEntriesOf mapping stage_id info
  ++ (match begFileOf mapping stage_id with
      | some f => [(f, info, true)]
      | none => [])
  ++ (match endFileOf mapping stage_id with
      | some f => [(f, info, true)]
      | none => [])

/-- `get_main_story_order_for_chapter`. -/
def get_main_story_order_for_chapter (chapter : Nat) (stages : StageTable)
    (story_files : List String) : List Entry :=
  let chapter_stages := chapterStages chapter stages
  let mapping := buildChapterMapping story_files
  let dependency_graph := build_stage_dependency_graph chapter_stages
  let ordered := (topological_sort dependency_graph).reverse
  ordered.flatMap (fun stage_id =>
    match alGet chapter_stages stage_id with
    | some info => emitForStageMain mapping stage_id info
    | none => [])

/-- File-name projection of a resolver result (used by several statements). -/
def resultFiles (r : Except String (List Entry)) : Option (List String) :=
  match r with
  | .ok l => some (l.map (fun e => e.1))
  | .error _ => none

/-- Declarative description of the files matched by the wordcount loop: the
manifest keys resolved to filenames (in manifest key order), non-empty,
first occurrence kept. -/
def wcMatchedFiles (event_id : String) (story_files wordcount_order : List String) :
    List String :=
  dedupFirstAux []
    ((wordcount_order.filterMap
        (wcResolve event_id (buildStoryFileMap event_id story_files) story_files)).filter
      (fun f => !f.data.isEmpty))

/-- Remaining in-degree of `u`: edges into `u` from graph entries whose key
is not yet in `result` (with multiplicity). -/
def remCount (graph : List (String × List String)) (result : List String) (u : String) : Nat :=
  ((graph.filter (fun p => !result.contains p.1)).map (fun p => p.2.count u)).sum

/-- The loop invariant of the embedded Kahn loop: the in-degree dict covers
exactly the graph keys, emitted and queued nodes are distinct keys, the
recorded in-degree of every key is its remaining in-degree (edges from
entries not yet emitted), and a key's remaining in-degree is zero exactly
when it has been emitted or queued. -/
def TopoInv (graph : List (String × List String)) (indeg : List (String × Int))
    (queue result : List String) : Prop :=
  alKeys indeg = alKeys graph
  ∧ (result ++ queue).Nodup
  ∧ (∀ x ∈ result ++ queue, x ∈ alKeys graph)
  ∧ (∀ u ∈ alKeys graph, alGet indeg u = some ((remCount graph result u : Int)))
  ∧ (∀ u ∈ alKeys graph, (remCount graph result u = 0 ↔ u ∈ result ++ queue))

/-- Postcondition carried out of the loop: the returned order is a
duplicate-free list of keys, and every key left out still has an incoming
edge from another key left out. -/
def TopoPost (graph : List (String × List String)) (out : List String) : Prop :=
  out.Nodup ∧ (∀ x ∈ out, x ∈ alKeys graph)
  ∧ (∀ u ∈ alKeys graph, u ∉ out → 1 ≤ remCount graph out u)

/-- Edge relation of the dependency graph: `a` lists `b` as a dependency.
Every edge source is a graph key, so a cycle can only pass through keys. -/
def edgeRel (graph : List (String × List String)) (a b : String) : Prop :=
  ∃ deps, (a, deps) ∈ graph ∧ b ∈ deps

/-- No node reaches itself through one or more dependency edges. -/
def AcyclicGraph (graph : List (String × List String)) : Prop :=
  ∀ x, ¬ Relation.TransGen (edgeRel graph) x x

/-! ### Concrete scenarios used by the claim theorems -/

/-- Stage record for the `evX_01` stage of the spec's concrete scenario. -/
def evxStage : StageInfo :=
  { stage_id := "evX_01", code := "EV-1", name := "stage one", stage_type := "ACTIVITY"
    danger_level := "", unlock_conditions := [], zone_id := "evX_zone1" }

/-- The three input files of the spec's concrete scenario. -/
def c1Files : List String :=
  ["level_evX_01_beg.json", "level_evX_01_end.json", "level_evX_st01.json"]

/-- Cycle scenario: a stage depending on `ev_10`. -/
def cycStage2 : StageInfo :=
  { stage_id := "ev_2", code := "EV-2", name := "s2", stage_type := "ACTIVITY"
    danger_level := "", unlock_conditions := [⟨"ev_10", "PASS"⟩], zone_id := "z" }

/-- Cycle scenario: a stage depending on `ev_2`. -/
def cycStage10 : StageInfo :=
  { stage_id := "ev_10", code := "EV-10", name := "s10", stage_type := "ACTIVITY"
    danger_level := "", unlock_conditions := [⟨"ev_2", "PASS"⟩], zone_id := "z" }

/-- Cycle scenario stage table: `ev_2` and `ev_10` depend on each other. -/
def c5Stages : StageTable := [("ev_2", cycStage2), ("ev_10", cycStage10)]

/-- Cycle scenario story files, one pre-battle file per stage. -/
def c5Files : List String := ["level_ev_2_beg.json", "level_ev_10_beg.json"]

/-- A dependency-free stage record. -/
def ndStage (sid scode snm : String) : StageInfo :=
  { stage_id := sid, code := scode, name := snm, stage_type := "ACTIVITY"
    danger_level := "", unlock_conditions := [], zone_id := "z" }

/-- Natural-sort scenario: stages `ev_2`, `ev_10`, `ev_1`, no dependencies. -/
def c7Stages : StageTable :=
  [("ev_2", ndStage "ev_2" "EV-2" "b"), ("ev_10", ndStage "ev_10" "EV-10" "c"),
   ("ev_1", ndStage "ev_1" "EV-1" "a")]

/-- Natural-sort scenario story files. -/
def c7Files : List String :=
  ["level_ev_2_beg.json", "level_ev_10_beg.json", "level_ev_1_beg.json"]

/-- Concrete two-node acyclic graph used by the C10 witness. -/
def c10Graph : List (String × List String) := [("a", ["b"]), ("b", [])]

/-- Wordcount scenario: two story files on disk, manifest listing only the
second one. -/
def c3Files : List String := ["level_ev_01_beg.json", "level_ev_02_beg.json"]

/-- The wordcount manifest for the scenario: event `ev` with a single path. -/
def c3Wcd : List (String × List String) := [("ev", ["activities/ev/level_ev_02_beg"])]

/-- Tri-order counterexample files: a hidden story file and a beg/end pair all
mapping to the placeholder stage `story_0`, which is absent from the pool. -/
def c4Files : List String :=
  ["level_zz_hidden_st01.json", "level_story_0_beg.json", "level_story_0_end.json"]

/-- Tri-order witness files: story-only, pre-battle and post-battle files of
the pool stage `ee_01`. -/
def c4wFiles : List String :=
  ["level_ee_01.json", "level_ee_01_beg.json", "level_ee_01_end.json"]

/-- The pool stage for the tri-order witness. -/
def eeStage : StageInfo :=
  { stage_id := "ee_01", code := "EE-1", name := "st", stage_type := "ACTIVITY"
    danger_level := "", unlock_conditions := [], zone_id := "ee_zone1" }

/-- Whether the sequenced stage loop emits file `f` while processing stage
`s`: the stage is in the pool, the file's mapping entry points at `s`, and
the file is a story-only match or the selected pre/post-battle file. -/
def emitsAt (event_stages : StageTable) (mapping : List (String × String × String))
    (s f : String) : Bool :=
  (alGet event_stages s).isSome &&
  (match alGet mapping f with
   | some v => v.1 == s
       && (v.2 == "story" || (v.2 == "beg" && begFileOf mapping s == some f)
           || (v.2 == "end" && endFileOf mapping s == some f))
   | none => false)

/-- Whether the sequenced stage loop emits file `f` at all: its mapped stage
is among the ordered stages and `emitsAt` holds there. -/
def emittedInLoop (event_stages : StageTable) (mapping : List (String × String × String))
    (ordered : List String) (f : String) : Bool :=
  match alGet mapping f with
  | some v => ordered.contains v.1 && emitsAt event_stages mapping v.1 f
  | none => false

/-- The event-type exclusion rules of the resolver: which input files are
dropped.  Only the MINISTORY path and the act4d0-family path drop files; the
wordcount path and the plain path keep every input file. -/
def droppedByEventRules (event_id : String) (event_type : Option String)
    (wordcount_data : List (String × List String)) (f : String) : Bool :=
  if !(get_event_story_order event_id wordcount_data).isEmpty then false
  else if event_type == some "MINISTORY" then !(is_ministory_story_file f)
  else if event_id == "act4d0" || event_id == "act6d5" || event_id == "act7d5" then
    !(pyStartsWith f ("level_" ++ event_id ++ "_st") && pyEndsWith f ".json"
      && (matchLevelStJson f).isSome)
  else false

/-! ## Lemmas: stable sort is a permutation -/

theorem contains_eq_true_iff (l : List String) (a : String) :
    l.contains a = true ↔ a ∈ l := by simp

theorem insertLt_perm (lt : α → α → Bool) (x : α) (l : List α) :
    (insertLt lt x l).Perm (x :: l) := by
  induction l with
  | nil => simp [insertLt]
  | cons y ys ih =>
    unfold insertLt
    by_cases h : lt y x
    · rw [if_pos h]
      exact (ih.cons y).trans (List.Perm.swap x y ys)
    · rw [if_neg h]

theorem sortLt_perm (lt : α → α → Bool) (l : List α) : (sortLt lt l).Perm l := by
  induction l with
  | nil => simp [sortLt]
  | cons x xs ih => exact (insertLt_perm lt x (sortLt lt xs)).trans (ih.cons x)

theorem sortNatural_perm (l : List String) : (sortNatural l).Perm l := sortLt_perm _ l

theorem sortLex_perm (l : List String) : (sortLex l).Perm l := sortLt_perm _ l

/-! ## Lemmas: association lists -/

theorem alGet_alSet_self (l : List (String × α)) (k : String) (v : α) :
    alGet (alSet l k v) k = some v := by
  induction l with
  | nil => simp [alSet, alGet]
  | cons p rest ih =>
    unfold alSet
    by_cases h : p.1 = k
    · simp [h, alGet]
    · simp [h, alGet, ih]

theorem alGet_alSet_ne (l : List (String × α)) (k q : String) (v : α) (h : q ≠ k) :
    alGet (alSet l k v) q = alGet l q := by
  have hkq : ¬ (k = q) := fun hh => h hh.symm
  induction l with
  | nil =>
    show (if k = q then some v else none) = none
    rw [if_neg hkq]
  | cons p rest ih =>
    unfold alSet
    by_cases hp : p.1 = k
    · rw [if_pos hp]
      show (if k = q then some v else alGet rest q) = (if p.1 = q then some p.2 else alGet rest q)
      rw [if_neg hkq, if_neg (fun hh : p.1 = q => h (hh.symm.trans hp))]
    · rw [if_neg hp]
      show (if p.1 = q then some p.2 else alGet (alSet rest k v) q)
        = (if p.1 = q then some p.2 else alGet rest q)
      by_cases hq : p.1 = q
      · rw [if_pos hq, if_pos hq]
      · rw [if_neg hq, if_neg hq]
        exact ih

theorem alKeys_alSet_of_isSome (l : List (String × α)) (k : String) (v : α)
    (h : (alGet l k).isSome) : alKeys (alSet l k v) = alKeys l := by
  induction l with
  | nil => simp [alGet] at h
  | cons p rest ih =>
    unfold alGet at h
    unfold alSet
    by_cases hp : p.1 = k
    · rw [if_pos hp]
      simp [alKeys, hp]
    · rw [if_neg hp]
      rw [if_neg hp] at h
      simp only [alKeys, List.map_cons] at ih ⊢
      rw [ih h]

theorem alGet_append_left (a b : List (String × α)) (k : String) (v : α)
    (h : alGet a k = some v) : alGet (a ++ b) k = some v := by
  induction a with
  | nil => simp [alGet] at h
  | cons p rest ih =>
    unfold alGet at h
    show (if p.1 = k then some p.2 else alGet (rest ++ b) k) = some v
    by_cases hp : p.1 = k
    · rw [if_pos hp] at h ⊢; exact h
    · rw [if_neg hp] at h ⊢; exact ih h

theorem alGet_append_right (a b : List (String × α)) (k : String)
    (h : alGet a k = none) : alGet (a ++ b) k = alGet b k := by
  induction a with
  | nil => rfl
  | cons p rest ih =>
    unfold alGet at h
    by_cases hp : p.1 = k
    · rw [if_pos hp] at h; exact absurd h (by simp)
    · rw [if_neg hp] at h
      show (if p.1 = k then some p.2 else alGet (rest ++ b) k) = alGet b k
      rw [if_neg hp]
      exact ih h

theorem alSet_of_none (l : List (String × α)) (k : String) (v : α)
    (h : alGet l k = none) : alSet l k v = l ++ [(k, v)] := by
  induction l with
  | nil => simp [alSet]
  | cons p rest ih =>
    unfold alGet at h
    by_cases hp : p.1 = k
    · simp [hp] at h
    · simp only [hp, if_false] at h
      unfold alSet
      simp [hp, ih h]

theorem alGet_map_pair (g : String → β) (files : List String) (k : String) :
    alGet (files.map (fun f => (f, g f))) k
      = if k ∈ files then some (g k) else none := by
  induction files with
  | nil => simp [alGet]
  | cons f rest ih =>
    simp only [List.map_cons]
    show (if f = k then some (g f) else alGet (rest.map (fun f => (f, g f))) k) = _
    by_cases hf : f = k
    · subst hf
      rw [if_pos rfl, if_pos (by simp)]
    · rw [if_neg hf, ih]
      by_cases hk : k ∈ rest
      · rw [if_pos hk, if_pos (by simp [hk])]
      · rw [if_neg hk, if_neg ?_]
        simp only [List.mem_cons]
        rintro (hh | hh)
        · exact hf hh.symm
        · exact hk hh

/-- A dict built by repeated assignment of `g f` under distinct keys is the
literal pair list. -/
theorem build_foldl_eq_map (g : String → β) (files : List String) :
    ∀ acc : List (String × β), files.Nodup → (∀ f ∈ files, alGet acc f = none) →
      files.foldl (fun m f => alSet m f (g f)) acc = acc ++ files.map (fun f => (f, g f)) := by
  induction files with
  | nil => intro acc _ _; simp
  | cons f rest ih =>
    intro acc hnd hdisj
    have hnone : alGet acc f = none := hdisj f (by simp)
    have hstep : alSet acc f (g f) = acc ++ [(f, g f)] := alSet_of_none acc f (g f) hnone
    have hnd2 : rest.Nodup := (List.nodup_cons.mp hnd).2
    have hfnotin : f ∉ rest := (List.nodup_cons.mp hnd).1
    have hdisj2 : ∀ x ∈ rest, alGet (acc ++ [(f, g f)]) x = none := by
      intro x hx
      rw [alGet_append_right acc _ x (hdisj x (by simp [hx]))]
      have hxf : ¬ (f = x) := fun hh => hfnotin (hh ▸ hx)
      show (if f = x then some (g f) else none) = none
      rw [if_neg hxf]
    simp only [List.foldl_cons, hstep]
    rw [ih (acc ++ [(f, g f)]) hnd2 hdisj2]
    simp

/-! ## Lemmas: dedupFirstAux -/

theorem dedupFirstAux_congr (l : List String) :
    ∀ s1 s2 : List String, (∀ x, s1.contains x = s2.contains x) →
      dedupFirstAux s1 l = dedupFirstAux s2 l := by
  induction l with
  | nil => intro s1 s2 _; rfl
  | cons x xs ih =>
    intro s1 s2 h
    unfold dedupFirstAux
    rw [h x]
    by_cases hc : s2.contains x
    · rw [if_pos hc, if_pos hc]
      exact ih s1 s2 h
    · rw [if_neg hc, if_neg hc]
      congr 1
      apply ih
      intro y
      simp only [List.contains_cons, h y]

theorem mem_dedupFirstAux (l : List String) :
    ∀ (seen : List String) (x : String),
      x ∈ dedupFirstAux seen l ↔ x ∈ l ∧ x ∉ seen := by
  induction l with
  | nil => intro seen x; simp [dedupFirstAux]
  | cons y ys ih =>
    intro seen x
    unfold dedupFirstAux
    by_cases hc : seen.contains y
    · rw [if_pos hc, ih]
      have hy : y ∈ seen := (contains_eq_true_iff seen y).mp hc
      constructor
      · rintro ⟨h1, h2⟩
        exact ⟨by simp [h1], h2⟩
      · rintro ⟨h1, h2⟩
        rcases List.mem_cons.mp h1 with h | h
        · subst h; exact absurd hy h2
        · exact ⟨h, h2⟩
    · rw [if_neg hc]
      have hy : y ∉ seen := fun hmem => hc ((contains_eq_true_iff seen y).mpr hmem)
      constructor
      · intro h
        rcases List.mem_cons.mp h with h | h
        · subst h; exact ⟨by simp, hy⟩
        · rw [ih] at h
          refine ⟨by simp [h.1], fun hx => h.2 (by simp [hx])⟩
      · rintro ⟨h1, h2⟩
        by_cases hxy : x = y
        · subst hxy; simp
        · right
          have hmem : x ∈ ys := by
            rcases List.mem_cons.mp h1 with h | h
            · exact absurd h hxy
            · exact h
          refine (ih (y :: seen) x).mpr ⟨hmem, fun hx => ?_⟩
          rcases List.mem_cons.mp hx with h3 | h3
          · exact hxy h3
          · exact h2 h3

theorem nodup_dedupFirstAux (l : List String) :
    ∀ seen : List String, (dedupFirstAux seen l).Nodup := by
  induction l with
  | nil => intro seen; simp [dedupFirstAux]
  | cons y ys ih =>
    intro seen
    unfold dedupFirstAux
    by_cases hc : seen.contains y
    · rw [if_pos hc]; exact ih seen
    · rw [if_neg hc]
      refine List.nodup_cons.mpr ⟨?_, ih (y :: seen)⟩
      intro hmem
      rw [mem_dedupFirstAux] at hmem
      exact hmem.2 (by simp)

/-! ## Lemmas: Except entry folds -/

theorem appendEntriesM_ok (step : String → Except String Entry)
    (hfst : ∀ f e, step f = .ok e → e.1 = f) (files : List String) :
    ∀ acc out : List Entry, appendEntriesM step files acc = .ok out →
      ∃ es, out = acc ++ es ∧ es.map (fun e => e.1) = files := by
  induction files with
  | nil =>
    intro acc out h
    injection h with h
    exact ⟨[], by simp [h.symm], rfl⟩
  | cons f fs ih =>
    intro acc out h
    cases hstep : step f with
    | error msg => simp [appendEntriesM, hstep] at h
    | ok e =>
      simp only [appendEntriesM, hstep] at h
      obtain ⟨es, ho, hm⟩ := ih (acc ++ [e]) out h
      refine ⟨e :: es, by simp [ho], ?_⟩
      simp [hm, hfst f e hstep]

/-! ## Lemmas: the Kahn loop -/

theorem count_cons_ne (u d : String) (ds : List String) (h : ¬ u = d) :
    (d :: ds).count u = ds.count u := by
  rw [List.count_cons]
  have hne : ¬ ((d == u) = true) := by
    simp only [beq_iff_eq]
    exact fun hh => h hh.symm
  rw [if_neg hne]
  omega

theorem count_cons_self (u : String) (ds : List String) :
    (u :: ds).count u = ds.count u + 1 := by
  rw [List.count_cons]
  simp

theorem stepDeps_val (deps : List String) :
    ∀ (indeg : List (String × Int)) (u : String),
      alGet (stepDeps indeg deps).1 u
        = (alGet indeg u).map (fun v => v - (deps.count u : Int)) := by
  induction deps with
  | nil => intro indeg u; cases h : alGet indeg u <;> simp [stepDeps, h]
  | cons d ds ih =>
    intro indeg u
    cases hd : alGet indeg d with
    | none =>
      simp only [stepDeps, hd]
      rw [ih]
      by_cases hud : u = d
      · subst hud; rw [hd]; rfl
      · rw [count_cons_ne u d ds hud]
    | some vd =>
      simp only [stepDeps, hd]
      rw [ih]
      by_cases hud : u = d
      · subst hud
        rw [alGet_alSet_self, hd]
        show some (vd - 1 - (ds.count u : Int)) = some (vd - ((u :: ds).count u : Int))
        rw [count_cons_self]
        congr 1
        push_cast
        ring
      · rw [alGet_alSet_ne _ _ _ _ hud]
        rw [count_cons_ne u d ds hud]

theorem stepDeps_keys (deps : List String) :
    ∀ indeg : List (String × Int),
      alKeys (stepDeps indeg deps).1 = alKeys indeg := by
  induction deps with
  | nil => intro indeg; rfl
  | cons d ds ih =>
    intro indeg
    cases hd : alGet indeg d with
    | none => simp only [stepDeps, hd]; exact ih indeg
    | some vd =>
      simp only [stepDeps, hd]
      rw [ih, alKeys_alSet_of_isSome _ _ _ (by simp [hd])]

theorem stepDeps_app_mem (deps : List String) :
    ∀ indeg : List (String × Int),
      (∀ u v, alGet indeg u = some v → ((deps.count u : Int) ≤ v)) →
      ∀ u, (u ∈ (stepDeps indeg deps).2
        ↔ ∃ v : Int, alGet indeg u = some v ∧ 1 ≤ deps.count u ∧ v = (deps.count u : Int)) := by
  induction deps with
  | nil =>
    intro indeg _ u
    simp [stepDeps]
  | cons d ds ih =>
    intro indeg hv u
    cases hd : alGet indeg d with
    | none =>
      simp only [stepDeps, hd]
      have hv2 : ∀ w wv, alGet indeg w = some wv → ((ds.count w : Int) ≤ wv) := by
        intro w wv hw
        refine le_trans ?_ (hv w wv hw)
        exact_mod_cast List.count_le_count_cons ..
      rw [ih indeg hv2 u]
      have hud : ∀ v : Int, alGet indeg u = some v → ¬ (u = d) := by
        intro v h1 hh
        rw [hh, hd] at h1
        cases h1
      constructor
      · rintro ⟨v, h1, h2, h3⟩
        rw [← count_cons_ne u d ds (hud v h1)] at h2 h3
        exact ⟨v, h1, h2, h3⟩
      · rintro ⟨v, h1, h2, h3⟩
        rw [count_cons_ne u d ds (hud v h1)] at h2 h3
        exact ⟨v, h1, h2, h3⟩
    | some vd =>
      simp only [stepDeps, hd]
      have hvd : ((d :: ds).count d : Int) ≤ vd := hv d vd hd
      rw [count_cons_self] at hvd
      push_cast at hvd
      have hv2 : ∀ w wv, alGet (alSet indeg d (vd - 1)) w = some wv →
          ((ds.count w : Int) ≤ wv) := by
        intro w wv hw
        by_cases hwd : w = d
        · subst hwd
          rw [alGet_alSet_self] at hw
          injection hw with hw
          omega
        · rw [alGet_alSet_ne _ _ _ _ hwd] at hw
          have hle := hv w wv hw
          rw [count_cons_ne w d ds hwd] at hle
          omega
      have hmem := ih (alSet indeg d (vd - 1)) hv2 u
      by_cases hud : u = d
      · subst hud
        rw [alGet_alSet_self] at hmem
        constructor
        · intro hmem0
          rcases List.mem_append.mp hmem0 with hl | hr
          · have hz : vd - 1 = 0 := by
              by_cases hz : vd - 1 = 0
              · exact hz
              · rw [if_neg hz] at hl; cases hl
            refine ⟨vd, hd, by rw [count_cons_self]; omega, ?_⟩
            rw [count_cons_self]
            push_cast
            omega
          · obtain ⟨w, hw1, hw2, hw3⟩ := hmem.mp hr
            injection hw1 with hw1
            refine ⟨vd, hd, by rw [count_cons_self]; omega, ?_⟩
            rw [count_cons_self]
            push_cast
            omega
        · rintro ⟨v, h1, _, h3⟩
          rw [hd] at h1
          injection h1 with h1
          subst h1
          rw [count_cons_self] at h3
          push_cast at h3
          by_cases hds : ds.count u = 0
          · apply List.mem_append.mpr (Or.inl ?_)
            have hz : vd - 1 = 0 := by omega
            rw [if_pos hz]; simp
          · apply List.mem_append.mpr (Or.inr ?_)
            apply hmem.mpr
            exact ⟨vd - 1, rfl, by omega, by omega⟩
      · have hgu : alGet (alSet indeg d (vd - 1)) u = alGet indeg u :=
          alGet_alSet_ne _ _ _ _ hud
        rw [hgu] at hmem
        constructor
        · intro hmem0
          rcases List.mem_append.mp hmem0 with hl | hr
          · exfalso
            by_cases hz : vd - 1 = 0
            · rw [if_pos hz] at hl
              exact hud (by simpa using hl)
            · rw [if_neg hz] at hl; cases hl
          · obtain ⟨w, hw1, hw2, hw3⟩ := hmem.mp hr
            rw [← count_cons_ne u d ds hud] at hw2 hw3
            exact ⟨w, hw1, hw2, hw3⟩
        · rintro ⟨v, h1, h2, h3⟩
          rw [count_cons_ne u d ds hud] at h2 h3
          exact List.mem_append.mpr (Or.inr (hmem.mpr ⟨v, h1, h2, h3⟩))

theorem stepDeps_app_nodup (deps : List String) :
    ∀ indeg : List (String × Int),
      (∀ u v, alGet indeg u = some v → ((deps.count u : Int) ≤ v)) →
      (stepDeps indeg deps).2.Nodup := by
  induction deps with
  | nil => intro indeg _; simp [stepDeps]
  | cons d ds ih =>
    intro indeg hv
    cases hd : alGet indeg d with
    | none =>
      simp only [stepDeps, hd]
      apply ih
      intro w wv hw
      refine le_trans ?_ (hv w wv hw)
      exact_mod_cast List.count_le_count_cons ..
    | some vd =>
      simp only [stepDeps, hd]
      have hvd : ((d :: ds).count d : Int) ≤ vd := hv d vd hd
      rw [count_cons_self] at hvd
      push_cast at hvd
      have hv2 : ∀ w wv, alGet (alSet indeg d (vd - 1)) w = some wv →
          ((ds.count w : Int) ≤ wv) := by
        intro w wv hw
        by_cases hwd : w = d
        · subst hwd
          rw [alGet_alSet_self] at hw
          injection hw with hw
          omega
        · rw [alGet_alSet_ne _ _ _ _ hwd] at hw
          have hle := hv w wv hw
          rw [count_cons_ne w d ds hwd] at hle
          omega
      apply List.Nodup.append
      · by_cases hz : vd - 1 = 0
        · rw [if_pos hz]; simp
        · rw [if_neg hz]; simp
      · exact ih _ hv2
      · intro x hx1 hx2
        have hxd : x = d := by
          by_cases hz : vd - 1 = 0
          · rw [if_pos hz] at hx1; simpa using hx1
          · rw [if_neg hz] at hx1; cases hx1
        subst hxd
        have hz : vd - 1 = 0 := by
          by_cases hz : vd - 1 = 0
          · exact hz
          · rw [if_neg hz] at hx1; cases hx1
        obtain ⟨w, hw1, hw2, hw3⟩ :=
          (stepDeps_app_mem ds _ hv2 x).mp hx2
        rw [alGet_alSet_self] at hw1
        injection hw1 with hw1
        omega

theorem sumPos_alSet (l : List (String × Int)) (k : String) (v w : Int) :
    alGet l k = some v → sumPos (alSet l k w) + v.toNat = sumPos l + w.toNat := by
  induction l with
  | nil => intro h; simp [alGet] at h
  | cons p rest ih =>
    intro h
    unfold alGet at h
    by_cases hp : p.1 = k
    · rw [if_pos hp] at h
      injection h with h
      subst h
      unfold alSet
      rw [if_pos hp]
      simp [sumPos]
      omega
    · rw [if_neg hp] at h
      unfold alSet
      rw [if_neg hp]
      simp only [sumPos, List.map_cons, List.sum_cons] at ih ⊢
      have := ih h
      omega

theorem stepDeps_mu (deps : List String) :
    ∀ indeg : List (String × Int),
      sumPos (stepDeps indeg deps).1 + (stepDeps indeg deps).2.length ≤ sumPos indeg := by
  induction deps with
  | nil => intro indeg; simp [stepDeps]
  | cons d ds ih =>
    intro indeg
    cases hd : alGet indeg d with
    | none => simp only [stepDeps, hd]; exact ih indeg
    | some vd =>
      simp only [stepDeps, hd]
      have heq := sumPos_alSet indeg d vd (vd - 1) hd
      have hih := ih (alSet indeg d (vd - 1))
      have hmono : (vd - 1).toNat ≤ vd.toNat := by omega
      by_cases hz : vd - 1 = 0
      · rw [if_pos hz]
        simp only [List.length_append, List.length_cons, List.length_nil]
        have : vd.toNat = (vd - 1).toNat + 1 := by omega
        omega
      · rw [if_neg hz]
        simp only [List.length_append, List.length_nil]
        omega

theorem contains_eq_false_iff (l : List String) (a : String) :
    l.contains a = false ↔ a ∉ l := by
  constructor
  · intro h hmem
    rw [(contains_eq_true_iff l a).mpr hmem] at h
    cases h
  · intro h
    cases hc : l.contains a
    · rfl
    · exact absurd ((contains_eq_true_iff l a).mp hc) h

theorem contains_append_eq (a b : List String) (x : String) :
    (a ++ b).contains x = (a.contains x || b.contains x) := by
  cases hc : (a ++ b).contains x
  · have hm : x ∉ a ++ b := (contains_eq_false_iff _ _).mp hc
    have ha : a.contains x = false :=
      (contains_eq_false_iff _ _).mpr (fun h => hm (List.mem_append.mpr (Or.inl h)))
    have hb : b.contains x = false :=
      (contains_eq_false_iff _ _).mpr (fun h => hm (List.mem_append.mpr (Or.inr h)))
    rw [ha, hb]
    rfl
  · have hm : x ∈ a ++ b := (contains_eq_true_iff _ _).mp hc
    rcases List.mem_append.mp hm with h | h
    · rw [(contains_eq_true_iff _ _).mpr h]
      rfl
    · rw [(contains_eq_true_iff _ _).mpr h]
      simp

theorem alKeys_nodup_cons (p : String × α) (rest : List (String × α))
    (h : (alKeys (p :: rest)).Nodup) : p.1 ∉ alKeys rest ∧ (alKeys rest).Nodup := by
  simp only [alKeys, List.map_cons, List.nodup_cons] at h
  exact h

theorem alGet_mem (l : List (String × α)) (k : String) (v : α)
    (h : alGet l k = some v) : (k, v) ∈ l := by
  induction l with
  | nil => simp [alGet] at h
  | cons p rest ih =>
    unfold alGet at h
    by_cases hp : p.1 = k
    · rw [if_pos hp] at h
      injection h with h
      have hpv : p = (k, v) := by
        cases p with
        | mk a b =>
          simp only at hp h
          rw [hp, h]
      rw [← hpv]
      exact List.mem_cons_self _ _
    · rw [if_neg hp] at h
      exact List.mem_cons_of_mem _ (ih h)

theorem alGet_eq_none_iff (l : List (String × α)) (k : String) :
    alGet l k = none ↔ k ∉ alKeys l := by
  induction l with
  | nil => simp [alGet, alKeys]
  | cons p rest ih =>
    unfold alGet
    by_cases hp : p.1 = k
    · rw [if_pos hp]
      simp [alKeys, hp]
    · rw [if_neg hp]
      rw [ih]
      simp only [alKeys, List.map_cons, List.mem_cons]
      constructor
      · intro h hh
        rcases hh with hh | hh
        · exact hp hh.symm
        · exact h hh
      · intro h hh
        exact h (Or.inr hh)

theorem alGet_isSome_of_mem_keys (l : List (String × α)) (k : String)
    (h : k ∈ alKeys l) : (alGet l k).isSome := by
  cases hc : alGet l k
  · exact absurd ((alGet_eq_none_iff l k).mp hc) (fun hh => hh h)
  · rfl

theorem remCount_nil (graph : List (String × List String)) (u : String) :
    remCount graph [] u = (graph.map (fun p => p.2.count u)).sum := by
  induction graph with
  | nil => rfl
  | cons p rest ih =>
    unfold remCount at ih ⊢
    simp only [List.filter_cons]
    have : ((!List.contains [] p.1) = true) := rfl
    rw [if_pos this]
    simp only [List.map_cons, List.sum_cons]
    rw [ih]

theorem remCount_irrelevant (l : List (String × List String)) (result : List String)
    (node u : String) (h : node ∉ alKeys l) :
    remCount l (result ++ [node]) u = remCount l result u := by
  induction l with
  | nil => rfl
  | cons p rest ih =>
    have hp : ¬ (p.1 = node) := by
      intro hh
      exact h (by simp [alKeys, hh])
    have hrest : node ∉ alKeys rest := by
      intro hh
      exact h (by simp [alKeys] at hh ⊢; exact Or.inr hh)
    have hcont : (result ++ [node]).contains p.1 = result.contains p.1 := by
      rw [contains_append_eq]
      have : List.contains [node] p.1 = false := by
        rw [contains_eq_false_iff]
        simp [hp]
      rw [this, Bool.or_false]
    unfold remCount at ih ⊢
    simp only [List.filter_cons, hcont]
    by_cases hres : (!result.contains p.1) = true
    · rw [if_pos hres, if_pos hres]
      simp only [List.map_cons, List.sum_cons]
      rw [ih hrest]
    · rw [if_neg hres, if_neg hres]
      exact ih hrest

theorem remCount_step (l : List (String × List String)) (result : List String)
    (node u : String) (deps : List String) (hK : (alKeys l).Nodup)
    (hnot : node ∉ result) (hget : alGet l node = some deps) :
    remCount l (result ++ [node]) u + deps.count u = remCount l result u := by
  induction l with
  | nil => simp [alGet] at hget
  | cons p rest ih =>
    unfold alGet at hget
    by_cases hp : p.1 = node
    · rw [if_pos hp] at hget
      injection hget with hget
      subst hget
      have hrestk : node ∉ alKeys rest := by
        have h1 := (alKeys_nodup_cons p rest hK).1
        rwa [hp] at h1
      have hcontold : (!result.contains p.1) = true := by
        rw [hp, (contains_eq_false_iff result node).mpr hnot]
        rfl
      have hcontnew : (!(result ++ [node]).contains p.1) = false := by
        rw [hp, contains_append_eq]
        have hc1 : List.contains [node] node = true := by
          rw [contains_eq_true_iff]
          simp
        rw [hc1, Bool.or_true]
        rfl
      unfold remCount
      simp only [List.filter_cons]
      rw [hcontnew, hcontold]
      rw [if_neg (by simp), if_pos rfl]
      simp only [List.map_cons, List.sum_cons]
      have hirr := remCount_irrelevant rest result node u hrestk
      unfold remCount at hirr
      omega
    · rw [if_neg hp] at hget
      have hK2 : (alKeys rest).Nodup := (alKeys_nodup_cons p rest hK).2
      have hcont : (result ++ [node]).contains p.1 = result.contains p.1 := by
        rw [contains_append_eq]
        have hc1 : List.contains [node] p.1 = false := by
          rw [contains_eq_false_iff]
          simp [hp]
        rw [hc1, Bool.or_false]
      unfold remCount
      simp only [List.filter_cons, hcont]
      by_cases hres : (!result.contains p.1) = true
      · rw [if_pos hres, if_pos hres]
        simp only [List.map_cons, List.sum_cons]
        have hihv := ih hK2 hget
        unfold remCount at hihv
        omega
      · rw [if_neg hres, if_neg hres]
        exact ih hK2 hget

theorem remCount_ge_entry (l : List (String × List String)) (result : List String)
    (node u : String) (deps : List String) (hnot : node ∉ result)
    (hget : alGet l node = some deps) : deps.count u ≤ remCount l result u := by
  have hmem : (node, deps) ∈ l := alGet_mem l node deps hget
  have hmemf : (node, deps) ∈ l.filter (fun p => !result.contains p.1) := by
    rw [List.mem_filter]
    refine ⟨hmem, ?_⟩
    rw [(contains_eq_false_iff result node).mpr hnot]
    rfl
  have : deps.count u ∈ (l.filter (fun p => !result.contains p.1)).map (fun p => p.2.count u) :=
    List.mem_map.mpr ⟨(node, deps), hmemf, rfl⟩
  exact List.single_le_sum (fun x _ => Nat.zero_le x) _ this

theorem incrAll_val (ds : List String) :
    ∀ (indeg : List (String × Int)) (u : String),
      alGet (incrAll indeg ds) u = (alGet indeg u).map (fun v => v + (ds.count u : Int)) := by
  induction ds with
  | nil => intro indeg u; cases h : alGet indeg u <;> simp [incrAll, h]
  | cons d ds2 ih =>
    intro indeg u
    cases hd : alGet indeg d with
    | none =>
      simp only [incrAll, hd]
      rw [ih]
      by_cases hud : u = d
      · subst hud; rw [hd]; rfl
      · rw [count_cons_ne u d ds2 hud]
    | some vd =>
      simp only [incrAll, hd]
      rw [ih]
      by_cases hud : u = d
      · subst hud
        rw [alGet_alSet_self, hd]
        show some (vd + 1 + (ds2.count u : Int)) = some (vd + ((u :: ds2).count u : Int))
        rw [count_cons_self]
        congr 1
        push_cast
        ring
      · rw [alGet_alSet_ne _ _ _ _ hud]
        rw [count_cons_ne u d ds2 hud]

theorem incrAll_keys (ds : List String) :
    ∀ indeg : List (String × Int), alKeys (incrAll indeg ds) = alKeys indeg := by
  induction ds with
  | nil => intro indeg; rfl
  | cons d ds2 ih =>
    intro indeg
    cases hd : alGet indeg d with
    | none => simp only [incrAll, hd]; exact ih indeg
    | some vd =>
      simp only [incrAll, hd]
      rw [ih, alKeys_alSet_of_isSome _ _ _ (by simp [hd])]

theorem foldl_incr_val (ents : List (String × List String)) :
    ∀ (acc : List (String × Int)) (u : String),
      alGet (List.foldl (fun a p => incrAll a p.2) acc ents) u
        = (alGet acc u).map
            (fun v => v + (((ents.map (fun p => p.2.count u)).sum : Nat) : Int)) := by
  induction ents with
  | nil => intro acc u; cases h : alGet acc u <;> simp [h]
  | cons e es ih =>
    intro acc u
    simp only [List.foldl_cons]
    rw [ih, incrAll_val]
    cases h : alGet acc u with
    | none => rfl
    | some v =>
      show some (v + ((e.2.count u : Nat) : Int)
          + (((es.map (fun p => p.2.count u)).sum : Nat) : Int))
        = some (v + ((((e :: es).map (fun p => p.2.count u)).sum : Nat) : Int))
      simp only [List.map_cons, List.sum_cons]
      congr 1
      push_cast
      ring

theorem foldl_incr_keys (ents : List (String × List String)) :
    ∀ acc : List (String × Int),
      alKeys (List.foldl (fun a p => incrAll a p.2) acc ents) = alKeys acc := by
  induction ents with
  | nil => intro acc; rfl
  | cons e es ih =>
    intro acc
    simp only [List.foldl_cons]
    rw [ih, incrAll_keys]

theorem alGet_map_zero (graph : List (String × List String)) (u : String) :
    alGet (graph.map (fun p => (p.1, (0 : Int)))) u
      = if u ∈ alKeys graph then some 0 else none := by
  induction graph with
  | nil => simp [alGet, alKeys]
  | cons p rest ih =>
    simp only [List.map_cons]
    show (if p.1 = u then some 0 else alGet (rest.map (fun p => (p.1, (0 : Int)))) u) = _
    by_cases hp : p.1 = u
    · rw [if_pos hp, if_pos (by simp [alKeys, hp])]
    · rw [if_neg hp, ih]
      by_cases hu : u ∈ alKeys rest
      · rw [if_pos hu, if_pos (by simp [alKeys] at hu ⊢; exact Or.inr hu)]
      · rw [if_neg hu, if_neg ?_]
        simp only [alKeys, List.map_cons, List.mem_cons]
        rintro (hh | hh)
        · exact hp hh.symm
        · exact hu hh

theorem initInDegree_val (graph : List (String × List String)) (u : String) :
    alGet (initInDegree graph) u
      = if u ∈ alKeys graph then some ((remCount graph [] u : Int)) else none := by
  unfold initInDegree
  rw [foldl_incr_val, alGet_map_zero]
  by_cases hu : u ∈ alKeys graph
  · rw [if_pos hu, if_pos hu]
    show some (0 + (((graph.map (fun p => p.2.count u)).sum : Nat) : Int))
      = some ((remCount graph [] u : Int))
    rw [remCount_nil, zero_add]
  · rw [if_neg hu, if_neg hu]
    rfl

theorem initInDegree_keys (graph : List (String × List String)) :
    alKeys (initInDegree graph) = alKeys graph := by
  unfold initInDegree
  rw [foldl_incr_keys]
  induction graph with
  | nil => rfl
  | cons p rest ih => simp [alKeys, ih]

theorem mem_filter_zero_iff (l : List (String × Int)) (hK : (alKeys l).Nodup) (u : String) :
    u ∈ (l.filter (fun p => p.2 = 0)).map Prod.fst ↔ alGet l u = some 0 := by
  induction l with
  | nil => simp [alGet]
  | cons p rest ih =>
    have hK2 := alKeys_nodup_cons p rest hK
    have ihr := ih hK2.2
    simp only [List.filter_cons]
    show _ ↔ (if p.1 = u then some p.2 else alGet rest u) = some 0
    by_cases hp : p.1 = u
    · rw [if_pos hp]
      by_cases hz : p.2 = 0
      · rw [if_pos (by simp [hz])]
        simp only [List.map_cons, List.mem_cons]
        constructor
        · intro _
          rw [hz]
        · intro _
          exact Or.inl hp.symm
      · rw [if_neg (by simp [hz])]
        constructor
        · intro hmem
          exfalso
          have hsub : u ∈ alKeys rest := by
            have hs : ((rest.filter (fun p => p.2 = 0)).map Prod.fst).Sublist
                (rest.map Prod.fst) :=
              (List.filter_sublist rest).map Prod.fst
            exact hs.subset hmem
          exact hK2.1 (by rwa [hp])
        · intro hco
          injection hco with hco
          exact absurd hco hz
    · rw [if_neg hp]
      by_cases hz : p.2 = 0
      · rw [if_pos (by simp [hz])]
        simp only [List.map_cons, List.mem_cons]
        constructor
        · rintro (hh | hh)
          · exact absurd hh.symm hp
          · exact ihr.mp hh
        · intro hh
          exact Or.inr (ihr.mpr hh)
      · rw [if_neg (by simp [hz])]
        exact ihr

theorem topoInv_init (graph : List (String × List String)) (hK : (alKeys graph).Nodup) :
    TopoInv graph (topoInitIndeg graph) (topoInitQueue graph) [] := by
  have hkeys : alKeys (topoInitIndeg graph) = alKeys graph := initInDegree_keys graph
  have hKi : (alKeys (topoInitIndeg graph)).Nodup := by rwa [hkeys]
  have hs : (topoInitQueue graph).Sublist (alKeys (topoInitIndeg graph)) :=
    (List.filter_sublist _).map Prod.fst
  refine ⟨hkeys, ?_, ?_, ?_, ?_⟩
  · simp only [List.nil_append]
    exact List.Nodup.sublist hs hKi
  · intro x hx
    simp only [List.nil_append] at hx
    exact hkeys ▸ hs.subset hx
  · intro u hu
    show alGet (initInDegree graph) u = some ((remCount graph [] u : Int))
    rw [initInDegree_val, if_pos hu]
  · intro u hu
    simp only [List.nil_append]
    have hq : u ∈ topoInitQueue graph ↔ alGet (topoInitIndeg graph) u = some 0 :=
      mem_filter_zero_iff _ hKi u
    rw [hq]
    rw [show alGet (topoInitIndeg graph) u
        = if u ∈ alKeys graph then some ((remCount graph [] u : Int)) else none from
      initInDegree_val graph u]
    rw [if_pos hu]
    constructor
    · intro h
      rw [h]
      norm_num
    · intro h
      injection h with h
      exact_mod_cast h

theorem topoInv_step (graph : List (String × List String)) (hK : (alKeys graph).Nodup)
    (indeg : List (String × Int)) (node : String) (rest result : List String)
    (inv : TopoInv graph indeg (node :: rest) result) :
    TopoInv graph (stepDeps indeg (alGetD graph node [])).1
      (rest ++ (stepDeps indeg (alGetD graph node [])).2) (result ++ [node]) := by
  obtain ⟨hkeys, hnd, hmemk, hval, hiff⟩ := inv
  have hnodek : node ∈ alKeys graph := hmemk node (by simp)
  obtain ⟨deps, hdeps⟩ : ∃ deps, alGet graph node = some deps := by
    cases hc : alGet graph node with
    | none => exact absurd hnodek ((alGet_eq_none_iff graph node).mp hc)
    | some d => exact ⟨d, rfl⟩
  have hgetD : alGetD graph node [] = deps := by rw [alGetD, hdeps]; rfl
  rw [hgetD]
  obtain ⟨hnd1, hnd2, hdisj⟩ := List.nodup_append.mp hnd
  have hnotres : node ∉ result := fun hmem => hdisj hmem (by simp)
  have hkmem : ∀ u v, alGet indeg u = some v → u ∈ alKeys graph := by
    intro u v hu
    by_contra hnk
    rw [(alGet_eq_none_iff indeg u).mpr (by rwa [hkeys])] at hu
    cases hu
  have hv : ∀ u v, alGet indeg u = some v → ((deps.count u : Int) ≤ v) := by
    intro u v hu
    have huk := hkmem u v hu
    rw [hval u huk] at hu
    injection hu with hu
    subst hu
    exact_mod_cast remCount_ge_entry graph result node u deps hnotres hdeps
  have happ := stepDeps_app_mem deps indeg hv
  have happnd := stepDeps_app_nodup deps indeg hv
  -- characterization of app members in terms of remaining counts
  have happ2 : ∀ u, u ∈ (stepDeps indeg deps).2
      ↔ u ∈ alKeys graph ∧ 1 ≤ deps.count u ∧ remCount graph result u = deps.count u := by
    intro u
    rw [happ u]
    constructor
    · rintro ⟨v, h1, h2, h3⟩
      have huk := hkmem u v h1
      rw [hval u huk] at h1
      injection h1 with h1
      refine ⟨huk, h2, ?_⟩
      rw [← h1] at h3
      exact_mod_cast h3
    · rintro ⟨huk, h2, h3⟩
      exact ⟨(remCount graph result u : Int), hval u huk, h2, by exact_mod_cast h3⟩
  have hrcstep : ∀ u, remCount graph (result ++ [node]) u + deps.count u
      = remCount graph result u := fun u =>
    remCount_step graph result node u deps hK hnotres hdeps
  -- new membership set is the old one plus app
  have hmemiff : ∀ x, (x ∈ (result ++ [node]) ++ (rest ++ (stepDeps indeg deps).2))
      ↔ (x ∈ result ++ node :: rest ∨ x ∈ (stepDeps indeg deps).2) := by
    intro x
    simp only [List.mem_append, List.mem_cons, List.mem_singleton]
    tauto
  refine ⟨?_, ?_, ?_, ?_, ?_⟩
  · rw [stepDeps_keys]
    exact hkeys
  · -- Nodup
    have hbase : (result ++ node :: rest).Nodup := hnd
    have hdisj2 : ∀ x ∈ (stepDeps indeg deps).2, x ∉ result ++ node :: rest := by
      intro x hx hxmem
      obtain ⟨hxk, hxc, hxeq⟩ := (happ2 x).mp hx
      have hz := (hiff x hxk).mpr hxmem
      omega
    have : ((result ++ node :: rest) ++ (stepDeps indeg deps).2).Nodup := by
      rw [List.nodup_append]
      exact ⟨hbase, happnd, fun a ha hb => hdisj2 a hb ha⟩
    have hperm : ((result ++ [node]) ++ (rest ++ (stepDeps indeg deps).2)).Perm
        ((result ++ node :: rest) ++ (stepDeps indeg deps).2) := by
      simp only [List.append_assoc, List.singleton_append]
      exact List.Perm.refl _
    exact hperm.nodup_iff.mpr this
  · intro x hx
    rcases (hmemiff x).mp hx with h | h
    · exact hmemk x h
    · exact ((happ2 x).mp h).1
  · intro u hu
    rw [stepDeps_val, hval u hu]
    show some ((remCount graph result u : Int) - (deps.count u : Int)) = _
    have := hrcstep u
    congr 1
    omega
  · intro u hu
    rw [hmemiff u]
    have hstep := hrcstep u
    constructor
    · intro hz
      by_cases hdc : deps.count u = 0
      · left
        exact (hiff u hu).mp (by omega)
      · right
        rw [happ2 u]
        exact ⟨hu, by omega, by omega⟩
    · rintro (h | h)
      · have := (hiff u hu).mpr h
        omega
      · obtain ⟨_, h2, h3⟩ := (happ2 u).mp h
        omega

theorem topoPost_of_inv (graph : List (String × List String))
    (indeg : List (String × Int)) (result : List String)
    (inv : TopoInv graph indeg [] result) : TopoPost graph result := by
  obtain ⟨_, hnd, hmemk, _, hiff⟩ := inv
  refine ⟨by simpa using hnd, fun x hx => hmemk x (by simpa using hx), ?_⟩
  intro u hu hnot
  have := hiff u hu
  simp only [List.append_nil] at this
  have hne : ¬ remCount graph result u = 0 := fun hz => hnot (this.mp hz)
  omega

theorem topoLoop_post (graph : List (String × List String)) (hK : (alKeys graph).Nodup) :
    ∀ (fuel : Nat) (indeg : List (String × Int)) (queue result : List String),
      TopoInv graph indeg queue result →
      sumPos indeg + queue.length ≤ fuel →
      TopoPost graph (topoLoop graph fuel indeg queue result) := by
  intro fuel
  induction fuel with
  | zero =>
    intro indeg queue result inv hmu
    have hq : queue = [] := by
      cases queue with
      | nil => rfl
      | cons a b => simp at hmu
    subst hq
    exact topoPost_of_inv graph indeg result inv
  | succ fuel ih =>
    intro indeg queue result inv hmu
    cases queue with
    | nil =>
      show TopoPost graph result
      exact topoPost_of_inv graph indeg result inv
    | cons node rest =>
      show TopoPost graph (topoLoop graph fuel (stepDeps indeg (alGetD graph node [])).1
        (rest ++ (stepDeps indeg (alGetD graph node [])).2) (result ++ [node]))
      apply ih
      · exact topoInv_step graph hK indeg node rest result inv
      · have hmu2 := stepDeps_mu (alGetD graph node []) indeg
        simp only [List.length_append]
        simp only [List.length_cons] at hmu
        omega

theorem topological_sort_post (graph : List (String × List String))
    (hK : (alKeys graph).Nodup) : TopoPost graph (topological_sort graph) := by
  apply topoLoop_post graph hK (topoFuel graph) _ _ _ (topoInv_init graph hK)
  exact Nat.le_refl _

theorem topoLoop_succ_eq (graph : List (String × List String)) :
    ∀ (fuel : Nat) (indeg : List (String × Int)) (queue result : List String),
      sumPos indeg + queue.length ≤ fuel →
      topoLoop graph (fuel + 1) indeg queue result
        = topoLoop graph fuel indeg queue result := by
  intro fuel
  induction fuel with
  | zero =>
    intro indeg queue result hmu
    have hq : queue = [] := by
      cases queue with
      | nil => rfl
      | cons a b => simp at hmu
    subst hq
    rfl
  | succ fuel ih =>
    intro indeg queue result hmu
    cases queue with
    | nil => rfl
    | cons node rest =>
      show topoLoop graph (fuel + 1) (stepDeps indeg (alGetD graph node [])).1
          (rest ++ (stepDeps indeg (alGetD graph node [])).2) (result ++ [node])
        = topoLoop graph fuel (stepDeps indeg (alGetD graph node [])).1
          (rest ++ (stepDeps indeg (alGetD graph node [])).2) (result ++ [node])
      apply ih
      have hmu2 := stepDeps_mu (alGetD graph node []) indeg
      simp only [List.length_append]
      simp only [List.length_cons] at hmu
      omega

theorem topoLoop_fuel_stable (graph : List (String × List String)) (k : Nat) :
    topoLoop graph (topoFuel graph + k) (topoInitIndeg graph) (topoInitQueue graph) []
      = topological_sort graph := by
  induction k with
  | zero => rfl
  | succ k ih =>
    rw [show topoFuel graph + (k + 1) = (topoFuel graph + k) + 1 by omega]
    rw [topoLoop_succ_eq graph (topoFuel graph + k) _ _ _ ?_]
    · exact ih
    · have heq : sumPos (topoInitIndeg graph) + (topoInitQueue graph).length
        = topoFuel graph := rfl
      omega

theorem topological_sort_complete (graph : List (String × List String))
    (hK : (alKeys graph).Nodup) (hacyc : AcyclicGraph graph) :
    ∀ k ∈ alKeys graph, k ∈ topological_sort graph := by
  by_contra hcon
  push_neg at hcon
  obtain ⟨k, hk, hknot⟩ := hcon
  obtain ⟨hnd, hsub, hrem⟩ := topological_sort_post graph hK
  have hpred : ∀ u, u ∈ alKeys graph ∧ u ∉ topological_sort graph →
      ∃ v, (v ∈ alKeys graph ∧ v ∉ topological_sort graph) ∧ edgeRel graph v u := by
    rintro u ⟨hu1, hu2⟩
    have h1 : 1 ≤ remCount graph (topological_sort graph) u := hrem u hu1 hu2
    unfold remCount at h1
    obtain ⟨x, hx, hxge⟩ : ∃ x ∈ (graph.filter
        (fun p => !(topological_sort graph).contains p.1)).map (fun p => p.2.count u),
        1 ≤ x := by
      by_contra hall
      push_neg at hall
      have hzero : ((graph.filter (fun p => !(topological_sort graph).contains p.1)).map
          (fun p => p.2.count u)).sum = 0 := by
        apply List.sum_eq_zero
        intro y hy
        have := hall y hy
        omega
      omega
    obtain ⟨p, hpmem, hpeq⟩ := List.mem_map.mp hx
    have hpfil := List.mem_filter.mp hpmem
    refine ⟨p.1, ⟨?_, ?_⟩, ⟨p.2, ?_, ?_⟩⟩
    · exact List.mem_map.mpr ⟨p, hpfil.1, rfl⟩
    · intro hmem
      have hb := hpfil.2
      rw [(contains_eq_true_iff _ _).mpr hmem] at hb
      cases hb
    · rcases p with ⟨a, b⟩
      exact hpfil.1
    · have hc : 1 ≤ p.2.count u := hpeq ▸ hxge
      exact List.count_pos_iff.mp (by omega)
  classical
  have hT : ∀ t : {u : String // u ∈ alKeys graph ∧ u ∉ topological_sort graph},
      ∃ s : {u : String // u ∈ alKeys graph ∧ u ∉ topological_sort graph},
        edgeRel graph s.1 t.1 := by
    intro t
    obtain ⟨v, hv, hedge⟩ := hpred t.1 t.2
    exact ⟨⟨v, hv⟩, hedge⟩
  choose g hg using hT
  have hseqstep : ∀ (t0 : {u : String // u ∈ alKeys graph ∧ u ∉ topological_sort graph})
      (n : Nat), edgeRel graph (g^[n+1] t0).1 (g^[n] t0).1 := by
    intro t0 n
    rw [Function.iterate_succ_apply' g n t0]
    exact hg (g^[n] t0)
  set t0 : {u : String // u ∈ alKeys graph ∧ u ∉ topological_sort graph} :=
    ⟨k, hk, hknot⟩ with ht0
  have hchain : ∀ i d : Nat,
      Relation.TransGen (edgeRel graph) (g^[i + d + 1] t0).1 (g^[i] t0).1 := by
    intro i d
    induction d with
    | zero => exact Relation.TransGen.single (hseqstep t0 i)
    | succ d ihd =>
      have h1 : edgeRel graph (g^[i + d + 2] t0).1 (g^[i + d + 1] t0).1 := by
        have := hseqstep t0 (i + d + 1)
        rwa [show i + d + 1 + 1 = i + d + 2 by omega] at this
      have h2 : Relation.TransGen (edgeRel graph) (g^[i + (d+1) + 1] t0).1
          (g^[i + d + 1] t0).1 := by
        rw [show i + (d+1) + 1 = i + d + 2 by omega]
        exact Relation.TransGen.single (by
          have := hseqstep t0 (i + d + 1)
          rwa [show i + d + 1 + 1 = i + d + 2 by omega] at this)
      exact h2.trans ihd
  have hmapsto : ∀ n ∈ Finset.range ((alKeys graph).length + 1),
      (g^[n] t0).1 ∈ (alKeys graph).toFinset := by
    intro n _
    simp only [List.mem_toFinset]
    exact (g^[n] t0).2.1
  have hcard : (alKeys graph).toFinset.card
      < (Finset.range ((alKeys graph).length + 1)).card := by
    rw [Finset.card_range]
    exact Nat.lt_succ_of_le (alKeys graph).toFinset_card_le
  obtain ⟨i, hi, j, hj, hij, heq⟩ :=
    Finset.exists_ne_map_eq_of_card_lt_of_maps_to hcard hmapsto
  have hcyc : ∀ a b : Nat, a < b → (g^[a] t0).1 = (g^[b] t0).1 → False := by
    intro a b hab habeq
    have hch := hchain a (b - a - 1)
    rw [show a + (b - a - 1) + 1 = b by omega] at hch
    rw [← habeq] at hch
    exact hacyc _ hch
  rcases Nat.lt_or_ge i j with hlt | hge
  · exact hcyc i j hlt heq
  · have hlt2 : j < i := lt_of_le_of_ne hge (fun hh => hij hh.symm)
    exact hcyc j i hlt2 heq.symm

theorem topological_sort_strict (graph : List (String × List String))
    (hK : (alKeys graph).Nodup) (k : String) (hk : k ∈ alKeys graph)
    (hknot : k ∉ topological_sort graph) :
    (topological_sort graph).length < (alKeys graph).length := by
  obtain ⟨hnd, hsub, _⟩ := topological_sort_post graph hK
  have hsub2 : topological_sort graph ⊆ (alKeys graph).erase k := by
    intro x hx
    have hxk : x ≠ k := fun hh => hknot (hh ▸ hx)
    exact (List.mem_erase_of_ne hxk).mpr (hsub x hx)
  have hle := (hnd.subperm hsub2).length_le
  rw [List.length_erase_of_mem hk] at hle
  have hpos : 0 < (alKeys graph).length := List.length_pos.mpr (List.ne_nil_of_mem hk)
  omega

theorem mem_of_getLast?_eq (l : List α) (a : α) (h : l.getLast? = some a) : a ∈ l := by
  induction l with
  | nil => simp at h
  | cons x xs ih =>
    cases xs with
    | nil =>
      simp only [List.getLast?_singleton] at h
      injection h with h
      simp [h]
    | cons y ys =>
      rw [List.getLast?_cons_cons] at h
      exact List.mem_cons_of_mem _ (ih h)

/-- When no stage in the pool has any dependency, the ordering reduces to
the natural sort of the pool keys (the `elif not stages_with_deps` branch). -/
theorem computeOrderedStages_no_deps (event_stages : StageTable)
    (h : ∀ e ∈ build_stage_dependency_graph event_stages, e.2 = []) :
    computeOrderedStages event_stages = sortNatural (event_stages.map Prod.fst) := by
  have hwd : (build_stage_dependency_graph event_stages).filter
      (fun p => !p.2.isEmpty) = [] := by
    rw [List.filter_eq_nil_iff]
    intro a ha
    rw [h a ha]
    simp
  simp [computeOrderedStages, hwd]

/-! ## Lemmas: the wordcount path -/

theorem remainingEntry_fst (event_id : String) (event_stages : StageTable)
    (mapping : List (String × String × String)) (f : String) (e : Entry)
    (h : remainingEntry event_id event_stages mapping f = .ok e) : e.1 = f := by
  unfold remainingEntry at h
  repeat' split at h
  all_goals try exact Except.noConfusion h
  all_goals simp only [] at h
  all_goals repeat' split at h
  all_goals first
    | exact Except.noConfusion h
    | (injection h with h; subst h; rfl)

theorem leftoverEntry_fst (event_id : String) (event_stages : StageTable)
    (mapping : List (String × String × String)) (f : String) (e : Entry)
    (h : leftoverEntry event_id event_stages mapping f = .ok e) : e.1 = f := by
  unfold leftoverEntry at h
  repeat' split at h
  all_goals simp only [] at h
  all_goals repeat' split at h
  all_goals first
    | exact Except.noConfusion h
    | (injection h with h; subst h; rfl)

theorem wcLoop_spec (event_id : String) (event_stages : StageTable)
    (story_file_map : List (String × String)) (story_files : List String) :
    ∀ (wco processed : List String),
      ((wcLoop event_id event_stages story_file_map story_files wco processed).1.map
          (fun e => e.1)
        = dedupFirstAux processed
            ((wco.filterMap (wcResolve event_id story_file_map story_files)).filter
              (fun f => !f.data.isEmpty)))
      ∧ (wcLoop event_id event_stages story_file_map story_files wco processed).2
        = processed ++ dedupFirstAux processed
            ((wco.filterMap (wcResolve event_id story_file_map story_files)).filter
              (fun f => !f.data.isEmpty)) := by
  intro wco
  induction wco with
  | nil =>
    intro processed
    exact ⟨rfl, by simp [wcLoop, dedupFirstAux]⟩
  | cons wc rest ih =>
    intro processed
    unfold wcLoop
    cases hres : wcResolve event_id story_file_map story_files wc with
    | none =>
      simp only [List.filterMap_cons, hres]
      exact ih processed
    | some f =>
      simp only [List.filterMap_cons, hres]
      by_cases hemp : f.data.isEmpty = true
      · simp only [hemp, Bool.not_true, Bool.false_and, List.filter_cons, Bool.not_true,
          if_false, Bool.false_eq_true]
        exact ih processed
      · have hemp' : f.data.isEmpty = false := eq_false_of_ne_true hemp
        simp only [hemp', Bool.not_false, Bool.true_and, List.filter_cons, if_true]
        by_cases hproc : processed.contains f = true
        · simp only [hproc, Bool.not_true, if_false, Bool.false_eq_true]
          unfold dedupFirstAux
          simp only [if_pos hproc]
          exact ih processed
        · have hproc' : processed.contains f = false := eq_false_of_ne_true hproc
          simp only [hproc', Bool.not_false, if_true]
          unfold dedupFirstAux
          simp only [if_neg hproc]
          obtain ⟨ih1, ih2⟩ := ih (processed ++ [f])
          have hcongr : ∀ L : List String,
              dedupFirstAux (processed ++ [f]) L = dedupFirstAux (f :: processed) L := by
            intro L
            apply dedupFirstAux_congr
            intro y
            rw [contains_append_eq, List.contains_cons]
            show (processed.contains y || List.contains [f] y) = (y == f || processed.contains y)
            rw [List.contains_cons]
            show (processed.contains y || (y == f || List.contains [] y)) = _
            cases processed.contains y <;> cases (y == f) <;> rfl
          constructor
          · simp only [List.map_cons]
            rw [ih1, hcongr]
            rfl
          · rw [ih2, hcongr]
            simp

/-- On the wordcount path the output's file sequence is exactly the matched
manifest files (in manifest key order, first match kept) followed by the
unmatched story files in natural-sort order. -/
theorem wordcount_files_eq (event_id : String) (stages : StageTable)
    (story_files : List String) (wordcount_order : List String)
    (event_type : Option String) (out : List Entry)
    (hok : get_story_order_from_wordcount event_id stages story_files
        wordcount_order event_type = .ok out) :
    out.map (fun e => e.1)
      = wcMatchedFiles event_id story_files wordcount_order
        ++ sortNatural (story_files.filter
            (fun f => !(wcMatchedFiles event_id story_files wordcount_order).contains f)) := by
  have hspec := wcLoop_spec event_id (get_event_related_stages event_id stages)
    (buildStoryFileMap event_id story_files) story_files wordcount_order []
  have h1 : (wcLoop event_id (get_event_related_stages event_id stages)
      (buildStoryFileMap event_id story_files) story_files wordcount_order []).1.map
      (fun e => e.1) = wcMatchedFiles event_id story_files wordcount_order := hspec.1
  have h2 : (wcLoop event_id (get_event_related_stages event_id stages)
      (buildStoryFileMap event_id story_files) story_files wordcount_order []).2
      = wcMatchedFiles event_id story_files wordcount_order := by
    rw [hspec.2]
    rfl
  unfold get_story_order_from_wordcount at hok
  simp only [] at hok
  rw [h2] at hok
  by_cases hrem : (story_files.filter
      (fun f => !(wcMatchedFiles event_id story_files wordcount_order).contains f)).isEmpty = true
  · rw [if_pos hrem] at hok
    injection hok with hok
    subst hok
    rw [h1, List.isEmpty_iff.mp hrem]
    simp [sortNatural, sortLt]
  · rw [if_neg hrem] at hok
    unfold get_remaining_story_files_with_proper_mapping at hok
    obtain ⟨es, ho, hm⟩ := appendEntriesM_ok _
      (remainingEntry_fst event_id (get_event_related_stages event_id stages) _) _ _ _ hok
    rw [ho]
    simp only [List.map_append]
    rw [h1, hm]

/-! ## Lemmas: tri-order inside the stage emission -/

theorem sublist_flatMap_of_mem {α β : Type} (g : α → List β) {a : α} {l : List α}
    (h : a ∈ l) : (g a).Sublist (l.flatMap g) := by
  induction l with
  | nil => cases h
  | cons b bs ih =>
    rw [List.flatMap_cons]
    rcases List.mem_cons.mp h with h1 | h2
    · subst h1
      exact List.sublist_append_left _ _
    · exact (ih h2).trans (List.sublist_append_right _ _)

theorem mem_storyEntriesOf (mapping : List (String × String × String)) (s sf : String)
    (info : StageInfo) (h : (sf, (s, "story")) ∈ mapping) :
    (sf, info, false) ∈ storyEntriesOf mapping s info := by
  unfold storyEntriesOf stageMatches
  apply List.mem_map.mpr
  refine ⟨(sf, (s, "story")), ?_, rfl⟩
  apply List.mem_filter.mpr
  exact ⟨List.mem_filter.mpr ⟨h, by simp⟩, by simp⟩

theorem triple_sublist_emitForStage (event_id : String)
    (mapping : List (String × String × String)) (s : String) (info : StageInfo)
    (sf bf ef : String) (hsf : (sf, (s, "story")) ∈ mapping)
    (hbf : begFileOf mapping s = some bf) (hef : endFileOf mapping s = some ef) :
    List.Sublist [(sf, info, false), (bf, info, true), (ef, info, true)]
      (emitForStage event_id mapping s info) := by
  unfold emitForStage
  rw [hbf, hef]
  simp only [Option.isNone_some, Bool.false_and, Bool.false_eq_true, if_false,
    List.append_nil]
  have he : [((sf : String), info, (false : Bool)), (bf, info, true), (ef, info, true)]
      = ([((sf : String), info, (false : Bool))] ++ [(bf, info, true)]) ++ [(ef, info, true)] :=
    rfl
  rw [he]
  exact List.Sublist.append
    (List.Sublist.append
      (List.singleton_sublist.mpr (mem_storyEntriesOf mapping s sf info hsf))
      (List.Sublist.refl _))
    (List.Sublist.refl _)

theorem triple_sublist_emitForStageMain
    (mapping : List (String × String × String)) (s : String) (info : StageInfo)
    (sf bf ef : String) (hsf : (sf, (s, "story")) ∈ mapping)
    (hbf : begFileOf mapping s = some bf) (hef : endFileOf mapping s = some ef) :
    List.Sublist [(sf, info, false), (bf, info, true), (ef, info, true)]
      (emitForStageMain mapping s info) := by
  unfold emitForStageMain
  rw [hbf, hef]
  simp only []
  have he : [((sf : String), info, (false : Bool)), (bf, info, true), (ef, info, true)]
      = ([((sf : String), info, (false : Bool))] ++ [(bf, info, true)]) ++ [(ef, info, true)] :=
    rfl
  rw [he]
  exact List.Sublist.append
    (List.Sublist.append
      (List.singleton_sublist.mpr (mem_storyEntriesOf mapping s sf info hsf))
      (List.Sublist.refl _))
    (List.Sublist.refl _)

theorem emitForStage_sublist_emitStages (event_id : String) (event_stages : StageTable)
    (mapping : List (String × String × String)) (ordered : List String) (s : String)
    (info : StageInfo) (hs : alGet event_stages s = some info) (hord : s ∈ ordered) :
    (emitForStage event_id mapping s info).Sublist
      (emitStages event_id event_stages mapping ordered) := by
  unfold emitStages
  have h := sublist_flatMap_of_mem (fun stage_id =>
    match alGet event_stages stage_id with
    | some i => emitForStage event_id mapping stage_id i
    | none => []) hord
  simp only [hs] at h
  exact h

/-! ## Lemmas: counting output files -/

theorem count_filter_eq (p : String → Bool) (l : List String) (a : String) :
    (l.filter p).count a = if p a = true then l.count a else 0 := by
  by_cases h : p a = true
  · rw [if_pos h, List.count_filter h]
  · rw [if_neg h]
    apply List.count_eq_zero.mpr
    intro hm
    exact h (List.mem_filter.mp hm).2

theorem dedupFirstAux_nodup (l : List String) :
    ∀ seen : List String, (dedupFirstAux seen l).Nodup
      ∧ ∀ x ∈ dedupFirstAux seen l, seen.contains x = false := by
  induction l with
  | nil =>
    intro seen
    exact ⟨List.nodup_nil, by intro x hx; cases hx⟩
  | cons y ys ih =>
    intro seen
    unfold dedupFirstAux
    by_cases hc : seen.contains y = true
    · rw [if_pos hc]
      exact ih seen
    · rw [if_neg hc]
      obtain ⟨hnd, hni⟩ := ih (y :: seen)
      constructor
      · apply List.nodup_cons.mpr
        refine ⟨?_, hnd⟩
        intro hy
        have hcy := hni y hy
        rw [List.contains_cons] at hcy
        simp at hcy
      · intro x hx
        rcases List.mem_cons.mp hx with h1 | h2
        · subst h1
          exact eq_false_of_ne_true hc
        · have hcx := hni x h2
          rw [List.contains_cons] at hcx
          exact (Bool.or_eq_false_iff.mp hcx).2

theorem isPrefixOf_append_self (l r : List Char) : l.isPrefixOf (l ++ r) = true := by
  induction l with
  | nil => simp
  | cons c cs ih => simp [List.isPrefixOf, ih]

theorem virtual_fst_ne (f s : String) (hV : pyStartsWith f "virtual_" = false) :
    ¬ f = "virtual_" ++ s ++ "_end" := by
  intro h
  rw [h] at hV
  unfold pyStartsWith at hV
  rw [String.data_append, String.data_append, List.append_assoc] at hV
  rw [isPrefixOf_append_self] at hV
  cases hV

/-! ## Lemmas: the mapping dict as a literal pair list -/

theorem buildMapping_eq_map (event_id : String) (event_type : Option String)
    (story_files : List String) (hF : story_files.Nodup) :
    buildMapping event_id event_type story_files
      = story_files.map (fun f => (f, classifyMain event_id event_type f)) := by
  unfold buildMapping
  have h := build_foldl_eq_map (classifyMain event_id event_type) story_files [] hF
    (fun f _ => rfl)
  simpa using h

theorem mem_map_pair_eq {β : Type} (g : String → β) (l : List String) (f : String) (v : β)
    (h : (f, v) ∈ l.map (fun x => (x, g x))) : v = g f := by
  obtain ⟨x, _, hpair⟩ := List.mem_map.mp h
  injection hpair with h1 h2
  subst h1
  exact h2.symm

theorem stageMatches_map (cls : String → String × String) (files : List String)
    (s : String) :
    stageMatches (files.map (fun f => (f, cls f))) s
      = (files.filter (fun f => (cls f).1 == s)).map (fun f => (f, cls f)) := by
  unfold stageMatches
  rw [List.filter_map]
  rfl

theorem alGet_map_pair_of_mem {β : Type} (g : String → β) (l : List String) (f : String)
    (hf : f ∈ l) : alGet (l.map (fun x => (x, g x))) f = some (g f) := by
  rw [alGet_map_pair]
  rw [if_pos hf]

theorem begFileOf_spec (cls : String → String × String) (files : List String)
    (s bf : String) (h : begFileOf (files.map (fun f => (f, cls f))) s = some bf) :
    (cls bf).1 = s ∧ (cls bf).2 = "beg" := by
  unfold begFileOf at h
  have hm := mem_of_getLast?_eq _ _ h
  obtain ⟨m, hmem, hfst⟩ := List.mem_map.mp hm
  obtain ⟨hmem2, hphase⟩ := List.mem_filter.mp hmem
  rw [stageMatches_map] at hmem2
  obtain ⟨x, hx, hpair⟩ := List.mem_map.mp hmem2
  obtain ⟨hxf, hstf⟩ := List.mem_filter.mp hx
  subst hpair
  simp only at hfst
  subst hfst
  exact ⟨eq_of_beq hstf, eq_of_beq hphase⟩

theorem endFileOf_spec (cls : String → String × String) (files : List String)
    (s ef : String) (h : endFileOf (files.map (fun f => (f, cls f))) s = some ef) :
    (cls ef).1 = s ∧ (cls ef).2 = "end" := by
  unfold endFileOf at h
  have hm := mem_of_getLast?_eq _ _ h
  obtain ⟨m, hmem, hfst⟩ := List.mem_map.mp hm
  obtain ⟨hmem2, hphase⟩ := List.mem_filter.mp hmem
  rw [stageMatches_map] at hmem2
  obtain ⟨x, hx, hpair⟩ := List.mem_map.mp hmem2
  obtain ⟨hxf, hstf⟩ := List.mem_filter.mp hx
  subst hpair
  simp only at hfst
  subst hfst
  exact ⟨eq_of_beq hstf, eq_of_beq hphase⟩

theorem storyEntriesOf_count (cls : String → String × String) (files : List String)
    (s f : String) (info : StageInfo) :
    ((storyEntriesOf (files.map (fun x => (x, cls x))) s info).map (fun e => e.1)).count f
      = if ((cls f).1 == s && (cls f).2 == "story") = true then files.count f else 0 := by
  unfold storyEntriesOf
  rw [stageMatches_map, List.filter_map, List.map_map, List.map_map]
  show (List.map (fun x => x)
      ((files.filter (fun x => (cls x).1 == s)).filter
        (fun x => (cls x).2 == "story"))).count f
    = if ((cls f).1 == s && (cls f).2 == "story") = true then files.count f else 0
  rw [List.map_id', count_filter_eq, count_filter_eq]
  by_cases h1 : ((cls f).1 == s) = true
  · by_cases h2 : ((cls f).2 == "story") = true
    · simp [h1, h2]
    · simp [h1, eq_false_of_ne_true h2]
  · by_cases h2 : ((cls f).2 == "story") = true
    · simp [eq_false_of_ne_true h1, h2]
    · simp [eq_false_of_ne_true h1, eq_false_of_ne_true h2]

theorem emitForStage_count (event_id : String) (cls : String → String × String)
    (files : List String) (s f : String) (info : StageInfo)
    (hF : files.Nodup) (hf : f ∈ files) (hV : pyStartsWith f "virtual_" = false) :
    ((emitForStage event_id (files.map (fun x => (x, cls x))) s info).map
        (fun e => e.1)).count f
      = if ((cls f).1 == s
          && ((cls f).2 == "story"
            || ((cls f).2 == "beg"
                && begFileOf (files.map (fun x => (x, cls x))) s == some f)
            || ((cls f).2 == "end"
                && endFileOf (files.map (fun x => (x, cls x))) s == some f))) = true
        then 1 else 0 := by
  have hc1 : files.count f = 1 := List.count_eq_one_of_mem hF hf
  unfold emitForStage
  rw [List.map_append, List.map_append, List.map_append,
    List.count_append, List.count_append, List.count_append]
  have hA : ((storyEntriesOf (files.map (fun x => (x, cls x))) s info).map
        (fun e => e.1)).count f
      = if ((cls f).1 == s && (cls f).2 == "story") = true then 1 else 0 := by
    rw [storyEntriesOf_count, hc1]
  have hB : (((match begFileOf (files.map (fun x => (x, cls x))) s with
        | some bf => [(bf, info, true)]
        | none => []) : List Entry).map (fun e => e.1)).count f
      = if (begFileOf (files.map (fun x => (x, cls x))) s == some f) = true
        then 1 else 0 := by
    cases hbeg : begFileOf (files.map (fun x => (x, cls x))) s with
    | none => rfl
    | some bf =>
      simp only [List.map_cons, List.map_nil]
      by_cases hfb : bf = f
      · subst hfb
        rw [if_pos (by simp)]
        rw [List.count_singleton]
        simp
      · rw [if_neg (by simp [hfb])]
        rw [List.count_singleton]
        rw [if_neg (by simp [hfb])]
  have hC : (((match endFileOf (files.map (fun x => (x, cls x))) s with
        | some ef => [(ef, info, true)]
        | none => []) : List Entry).map (fun e => e.1)).count f
      = if (endFileOf (files.map (fun x => (x, cls x))) s == some f) = true
        then 1 else 0 := by
    cases hend : endFileOf (files.map (fun x => (x, cls x))) s with
    | none => rfl
    | some ef =>
      simp only [List.map_cons, List.map_nil]
      by_cases hfe : ef = f
      · subst hfe
        rw [if_pos (by simp)]
        rw [List.count_singleton]
        simp
      · rw [if_neg (by simp [hfe])]
        rw [List.count_singleton]
        rw [if_neg (by simp [hfe])]
  have hVc : ((if (begFileOf (files.map (fun x => (x, cls x))) s).isNone
          && (endFileOf (files.map (fun x => (x, cls x))) s).isNone
          && (storyFileOf (files.map (fun x => (x, cls x))) s).isNone
          && event_id == "act9d0" && (s == "act9d0_07" || s == "act9d0_08")
        then [(("virtual_" ++ s ++ "_end" : String), info, (true : Bool))]
        else []).map (fun e => e.1)).count f = 0 := by
    split
    · simp only [List.map_cons, List.map_nil]
      rw [List.count_eq_zero]
      simp only [List.mem_singleton]
      exact virtual_fst_ne f s hV
    · rfl
  rw [hA, hB, hC, hVc]
  by_cases hb : (begFileOf (files.map (fun x => (x, cls x))) s == some f) = true
  · obtain ⟨hv1, hv2⟩ := begFileOf_spec cls files s f (eq_of_beq hb)
    have hcend : (endFileOf (files.map (fun x => (x, cls x))) s == some f) = false := by
      cases hx : (endFileOf (files.map (fun x => (x, cls x))) s == some f)
      · rfl
      · obtain ⟨_, hv2'⟩ := endFileOf_spec cls files s f (eq_of_beq hx)
        rw [hv2] at hv2'
        exact absurd hv2' (by decide)
    simp [hb, hcend, hv1, hv2]
  · have hbf : (begFileOf (files.map (fun x => (x, cls x))) s == some f) = false :=
      eq_false_of_ne_true hb
    by_cases he : (endFileOf (files.map (fun x => (x, cls x))) s == some f) = true
    · obtain ⟨hv1, hv2⟩ := endFileOf_spec cls files s f (eq_of_beq he)
      have hcbeg : ((cls f).2 == "beg") = false := by
        rw [hv2]
        decide
      simp [hbf, he, hv1, hv2]
    · have hef : (endFileOf (files.map (fun x => (x, cls x))) s == some f) = false :=
        eq_false_of_ne_true he
      simp [hbf, hef]

theorem emitStages_count (event_id : String) (event_stages : StageTable)
    (cls : String → String × String) (files : List String) (f : String)
    (hF : files.Nodup) (hf : f ∈ files) (hV : pyStartsWith f "virtual_" = false) :
    ∀ ordered : List String, ordered.Nodup →
      ((emitStages event_id event_stages (files.map (fun x => (x, cls x))) ordered).map
          (fun e => e.1)).count f
        = if emittedInLoop event_stages (files.map (fun x => (x, cls x))) ordered f = true
          then 1 else 0 := by
  have halg : alGet (files.map (fun x => (x, cls x))) f = some (cls f) :=
    alGet_map_pair_of_mem cls files f hf
  intro ordered
  induction ordered with
  | nil =>
    intro _
    unfold emitStages emittedInLoop
    rw [halg]
    simp
  | cons s rest ih =>
    intro hnd
    obtain ⟨hs_nin, hnd2⟩ := List.nodup_cons.mp hnd
    have hrest := ih hnd2
    unfold emitStages at hrest ⊢
    rw [List.flatMap_cons, List.map_append, List.count_append, hrest]
    unfold emittedInLoop
    rw [halg]
    simp only [List.contains_cons]
    by_cases hseq : (cls f).1 = s
    · subst hseq
      have hrc : rest.contains (cls f).1 = false := by
        cases hrc' : rest.contains (cls f).1
        · rfl
        · exact absurd ((contains_eq_true_iff rest (cls f).1).mp hrc') hs_nin
      cases halgs : alGet event_stages (cls f).1 with
      | none =>
        simp only [halgs, List.map_nil]
        unfold emitsAt
        simp only [halgs, halg]
        simp [hrc]
      | some info =>
        simp only [halgs]
        rw [emitForStage_count event_id cls files (cls f).1 f info hF hf hV]
        unfold emitsAt
        simp only [halgs, halg, Option.isSome_some, Bool.true_and, beq_self_eq_true, hrc,
          Bool.false_and]
        cases hX : ((cls f).2 == "story"
            || ((cls f).2 == "beg"
                && begFileOf (files.map (fun x => (x, cls x))) (cls f).1 == some f)
            || ((cls f).2 == "end"
                && endFileOf (files.map (fun x => (x, cls x))) (cls f).1 == some f))
        · simp [hX]
        · simp [hX]
    · have hbeq : ((cls f).1 == s) = false := by
        cases hb : ((cls f).1 == s)
        · rfl
        · exact absurd (eq_of_beq hb) hseq
      cases halgs : alGet event_stages s with
      | none =>
        simp only [halgs, List.map_nil]
        simp [hbeq]
      | some info =>
        simp only [halgs]
        rw [emitForStage_count event_id cls files s f info hF hf hV]
        simp [hbeq]

/-! ## Lemmas: the computed stage order has no duplicates -/

theorem nodup_keys_inj {β : Type} (l : List (String × β)) (hK : (l.map Prod.fst).Nodup)
    (p q : String × β) (hp : p ∈ l) (hq : q ∈ l) (h : p.1 = q.1) : p = q := by
  induction l with
  | nil => cases hp
  | cons a as ih =>
    rw [List.map_cons] at hK
    obtain ⟨hna, hnd⟩ := List.nodup_cons.mp hK
    rcases List.mem_cons.mp hp with hp1 | hp2
    · rcases List.mem_cons.mp hq with hq1 | hq2
      · rw [hp1, hq1]
      · exfalso
        apply hna
        rw [hp1] at h
        rw [h]
        exact List.mem_map.mpr ⟨q, hq2, rfl⟩
    · rcases List.mem_cons.mp hq with hq1 | hq2
      · exfalso
        apply hna
        rw [hq1] at h
        rw [← h]
        exact List.mem_map.mpr ⟨p, hp2, rfl⟩
      · exact ih hnd hp2 hq2

theorem graph_keys_eq (event_stages : StageTable) :
    (build_stage_dependency_graph event_stages).map Prod.fst
      = event_stages.map Prod.fst := by
  unfold build_stage_dependency_graph
  rw [List.map_map]
  rfl

theorem computeOrderedStages_nodup (event_stages : StageTable)
    (hK : (event_stages.map Prod.fst).Nodup) :
    (computeOrderedStages event_stages).Nodup := by
  have hGK : ((build_stage_dependency_graph event_stages).map Prod.fst).Nodup := by
    rw [graph_keys_eq]
    exact hK
  have hpost := topological_sort_post (build_stage_dependency_graph event_stages) hGK
  have hord0 : ((topological_sort (build_stage_dependency_graph event_stages)).reverse).Nodup :=
    List.nodup_reverse.mpr hpost.1
  have hnd_nodeps : (((build_stage_dependency_graph event_stages).filter
      (fun p => p.2.isEmpty)).map Prod.fst).Nodup := by
    apply List.Nodup.sublist _ hGK
    exact List.Sublist.map Prod.fst (List.filter_sublist _)
  unfold computeOrderedStages
  simp only []
  split
  · apply List.Nodup.append
    · exact (sortNatural_perm _).nodup_iff.mpr hnd_nodeps
    · exact List.Nodup.filter _ hord0
    · intro x hx1 hx2
      have hx1' : x ∈ ((build_stage_dependency_graph event_stages).filter
          (fun p => p.2.isEmpty)).map Prod.fst :=
        (sortNatural_perm _).mem_iff.mp hx1
      have hx2' : x ∈ ((build_stage_dependency_graph event_stages).filter
          (fun p => !p.2.isEmpty)).map Prod.fst := by
        have := (List.mem_filter.mp hx2).2
        exact (contains_eq_true_iff _ _).mp this
      obtain ⟨p, hpmem, hpfst⟩ := List.mem_map.mp hx1'
      obtain ⟨q, hqmem, hqfst⟩ := List.mem_map.mp hx2'
      obtain ⟨hpg, hpe⟩ := List.mem_filter.mp hpmem
      obtain ⟨hqg, hqe⟩ := List.mem_filter.mp hqmem
      have hpq : p = q := nodup_keys_inj _ hGK p q hpg hqg (by rw [hpfst, hqfst])
      rw [hpq] at hpe
      rw [hpe] at hqe
      cases hqe
  · split
    · exact (sortNatural_perm _).nodup_iff.mpr hK
    · exact hord0

/-! ## Lemmas: per-path output file counts -/

theorem ministory_fst (event_id : String) (l : List String) :
    ((l.flatMap (fun file_name =>
        match matchLevelStJson file_name with
        | some r =>
          [(file_name,
            ({ stage_id := r.1 ++ "_st" ++ r.2
               code := "ST-" ++ toString (natOfDigits r.2.data)
               name := "シナリオ " ++ toString (natOfDigits r.2.data)
               stage_type := "MINISTORY_STORY"
               danger_level := ""
               unlock_conditions := []
               zone_id := event_id ++ "_zone1" } : StageInfo))]
        | none => [])).map Prod.fst)
      = l.filter (fun x => (matchLevelStJson x).isSome) := by
  induction l with
  | nil => rfl
  | cons y ys ih =>
    rw [List.flatMap_cons, List.map_append, ih, List.filter_cons]
    cases hy : matchLevelStJson y with
    | some r =>
      simp only [hy, Option.isSome_some, if_true, List.map_cons, List.map_nil]
      rfl
    | none =>
      simp only [hy, Option.isSome_none, Bool.false_eq_true, if_false, List.map_nil,
        List.nil_append]

theorem act4d0_fst (event_id : String) (l : List String) :
    ((l.flatMap (fun story_file =>
        match matchLevelStJson story_file with
        | some r =>
          [((story_file,
             { stage_id := event_id ++ "_st" ++ r.2
               code := "ST-" ++ toString (natOfDigits r.2.data)
               name := "シナリオ " ++ toString (natOfDigits r.2.data)
               stage_type := "TYPE_ACT4D0_STORY"
               danger_level := ""
               unlock_conditions := []
               zone_id := event_id ++ "_zone1" }, false) : Entry)]
        | none => [])).map (fun e => e.1))
      = l.filter (fun x => (matchLevelStJson x).isSome) := by
  induction l with
  | nil => rfl
  | cons y ys ih =>
    rw [List.flatMap_cons, List.map_append, ih, List.filter_cons]
    cases hy : matchLevelStJson y with
    | some r =>
      simp only [hy, Option.isSome_some, if_true, List.map_cons, List.map_nil]
      rfl
    | none =>
      simp only [hy, Option.isSome_none, Bool.false_eq_true, if_false, List.map_nil,
        List.nil_append]

theorem ministory_count (event_id : String) (story_files : List String) (f : String)
    (hF : story_files.Nodup) (hf : f ∈ story_files) :
    (((get_ministory_stages event_id story_files).map
        (fun p => ((p.1, p.2, false) : Entry))).map (fun e => e.1)).count f
      = if is_ministory_story_file f = true then 1 else 0 := by
  unfold get_ministory_stages
  simp only []
  rw [List.map_map]
  show (((sortLex (story_files.filter is_ministory_story_file)).flatMap (fun file_name =>
      match matchLevelStJson file_name with
      | some r =>
        [(file_name,
          ({ stage_id := r.1 ++ "_st" ++ r.2
             code := "ST-" ++ toString (natOfDigits r.2.data)
             name := "シナリオ " ++ toString (natOfDigits r.2.data)
             stage_type := "MINISTORY_STORY"
             danger_level := ""
             unlock_conditions := []
             zone_id := event_id ++ "_zone1" } : StageInfo))]
      | none => [])).map Prod.fst).count f
    = if is_ministory_story_file f = true then 1 else 0
  rw [ministory_fst, count_filter_eq,
    (sortLex_perm (story_files.filter is_ministory_story_file)).count_eq,
    count_filter_eq, List.count_eq_one_of_mem hF hf]
  cases hmin : is_ministory_story_file f
  · have hns : ((matchLevelStJson f).isSome) = false := hmin
    rw [hns]
    simp
  · have hs : ((matchLevelStJson f).isSome) = true := hmin
    rw [hs]
    simp

theorem act4d0_count (event_id : String) (event_stages : StageTable)
    (story_files : List String) (f : String) (hF : story_files.Nodup)
    (hf : f ∈ story_files) :
    ((handle_type_act4d0_events event_id event_stages story_files).map
        (fun e => e.1)).count f
      = if (pyStartsWith f ("level_" ++ event_id ++ "_st") && pyEndsWith f ".json"
            && (matchLevelStJson f).isSome) = true then 1 else 0 := by
  unfold handle_type_act4d0_events
  simp only []
  rw [act4d0_fst, count_filter_eq,
    (sortLex_perm (story_files.filter (fun x =>
      pyStartsWith x ("level_" ++ event_id ++ "_st") && pyEndsWith x ".json"))).count_eq,
    count_filter_eq, List.count_eq_one_of_mem hF hf]
  by_cases hq : ((matchLevelStJson f).isSome) = true
  · by_cases hp : (pyStartsWith f ("level_" ++ event_id ++ "_st")
        && pyEndsWith f ".json") = true
    · rw [if_pos hq, if_pos hp, if_pos (by rw [hp, hq]; rfl)]
    · rw [if_pos hq, if_neg hp,
        if_neg (by rw [eq_false_of_ne_true hp]; simp)]
  · rw [if_neg hq, if_neg (by rw [eq_false_of_ne_true hq]; simp)]

theorem event_stages_keys_nodup (event_id : String) (stages : StageTable)
    (hK : (stages.map Prod.fst).Nodup) :
    ((get_event_related_stages event_id stages).map Prod.fst).Nodup := by
  apply List.Nodup.sublist _ hK
  exact List.Sublist.map Prod.fst (List.filter_sublist _)

theorem wcPath_count (event_id : String) (stages : StageTable) (story_files : List String)
    (wordcount_order : List String) (event_type : Option String) (out : List Entry)
    (hF : story_files.Nodup)
    (hok : get_story_order_from_wordcount event_id stages story_files wordcount_order
        event_type = .ok out) :
    ∀ f ∈ story_files, (out.map (fun e => e.1)).count f = 1 := by
  intro f hf
  rw [wordcount_files_eq event_id stages story_files wordcount_order event_type out hok]
  rw [List.count_append,
    (sortNatural_perm (story_files.filter (fun x =>
      !(wcMatchedFiles event_id story_files wordcount_order).contains x))).count_eq,
    count_filter_eq, List.count_eq_one_of_mem hF hf]
  have hnd : (wcMatchedFiles event_id story_files wordcount_order).Nodup := by
    unfold wcMatchedFiles
    exact (dedupFirstAux_nodup _ []).1
  cases hc : (wcMatchedFiles event_id story_files wordcount_order).contains f
  · rw [List.count_eq_zero.mpr ((contains_eq_false_iff _ _).mp hc)]
    simp
  · rw [List.count_eq_one_of_mem hnd ((contains_eq_true_iff _ _).mp hc)]
    simp

theorem plainPath_count (event_id : String) (stages : StageTable)
    (story_files : List String) (event_type : Option String) (out : List Entry)
    (hK : (stages.map Prod.fst).Nodup) (hF : story_files.Nodup)
    (hV : ∀ f ∈ story_files, pyStartsWith f "virtual_" = false)
    (hok : appendEntriesM
        (leftoverEntry event_id (get_event_related_stages event_id stages)
          (buildMapping event_id event_type story_files))
        (sortLex (story_files.filter (fun f =>
          !((emitStages event_id (get_event_related_stages event_id stages)
              (buildMapping event_id event_type story_files)
              (computeOrderedStages (get_event_related_stages event_id stages))).map
                (fun e => e.1)).contains f)))
        (emitStages event_id (get_event_related_stages event_id stages)
          (buildMapping event_id event_type story_files)
          (computeOrderedStages (get_event_related_stages event_id stages)))
      = .ok out) :
    ∀ f ∈ story_files, (out.map (fun e => e.1)).count f = 1 := by
  intro f hf
  rw [buildMapping_eq_map event_id event_type story_files hF] at hok
  obtain ⟨es, ho, hm⟩ := appendEntriesM_ok _
    (leftoverEntry_fst event_id (get_event_related_stages event_id stages)
      (story_files.map (fun x => (x, classifyMain event_id event_type x)))) _ _ _ hok
  subst ho
  rw [List.map_append, List.count_append, hm]
  have hnodord := computeOrderedStages_nodup (get_event_related_stages event_id stages)
    (event_stages_keys_nodup event_id stages hK)
  have hcount := emitStages_count event_id (get_event_related_stages event_id stages)
    (classifyMain event_id event_type) story_files f hF hf (hV f hf)
    (computeOrderedStages (get_event_related_stages event_id stages)) hnodord
  have hcon : ((emitStages event_id (get_event_related_stages event_id stages)
        (story_files.map (fun x => (x, classifyMain event_id event_type x)))
        (computeOrderedStages (get_event_related_stages event_id stages))).map
          (fun e => e.1)).contains f
      = emittedInLoop (get_event_related_stages event_id stages)
          (story_files.map (fun x => (x, classifyMain event_id event_type x)))
          (computeOrderedStages (get_event_related_stages event_id stages)) f := by
    cases hE : emittedInLoop (get_event_related_stages event_id stages)
        (story_files.map (fun x => (x, classifyMain event_id event_type x)))
        (computeOrderedStages (get_event_related_stages event_id stages)) f
    · have h0 : ((emitStages event_id (get_event_related_stages event_id stages)
          (story_files.map (fun x => (x, classifyMain event_id event_type x)))
          (computeOrderedStages (get_event_related_stages event_id stages))).map
            (fun e => e.1)).count f = 0 := by
        rw [hcount, hE]
        simp
      exact (contains_eq_false_iff _ _).mpr (List.count_eq_zero.mp h0)
    · have h1 : ((emitStages event_id (get_event_related_stages event_id stages)
          (story_files.map (fun x => (x, classifyMain event_id event_type x)))
          (computeOrderedStages (get_event_related_stages event_id stages))).map
            (fun e => e.1)).count f = 1 := by
        rw [hcount, hE]
        simp
      exact (contains_eq_true_iff _ _).mpr (List.count_pos_iff.mp (by omega))
  rw [hcount,
    (sortLex_perm (story_files.filter (fun x =>
      !((emitStages event_id (get_event_related_stages event_id stages)
          (story_files.map (fun x => (x, classifyMain event_id event_type x)))
          (computeOrderedStages (get_event_related_stages event_id stages))).map
            (fun e => e.1)).contains x))).count_eq,
    count_filter_eq, List.count_eq_one_of_mem hF hf, hcon]
  cases hE : emittedInLoop (get_event_related_stages event_id stages)
      (story_files.map (fun x => (x, classifyMain event_id event_type x)))
      (computeOrderedStages (get_event_related_stages event_id stages)) f
  · simp [hE]
  · simp [hE]

/-- The central completeness lemma: when the resolver succeeds, every input
filename appears in the output exactly once, except the files dropped by the
MINISTORY / act4d0-family rules, which appear zero times. -/
theorem resolver_count (event_id : String) (stages : StageTable) (story_files : List String)
    (event_type : Option String) (wordcount_data : List (String × List String))
    (out : List Entry) (hK : (stages.map Prod.fst).Nodup) (hF : story_files.Nodup)
    (hV : ∀ f ∈ story_files, pyStartsWith f "virtual_" = false)
    (hok : get_story_order_for_event event_id stages story_files event_type wordcount_data
        = .ok out) :
    ∀ f ∈ story_files,
      (out.map (fun e => e.1)).count f
        = if droppedByEventRules event_id event_type wordcount_data f = true then 0
          else 1 := by
  intro f hf
  unfold get_story_order_for_event at hok
  simp only [] at hok
  unfold droppedByEventRules
  by_cases hwc : (!(get_event_story_order event_id wordcount_data).isEmpty) = true
  · rw [if_pos hwc] at hok
    rw [if_pos hwc, if_neg (by simp)]
    exact wcPath_count event_id stages story_files _ event_type out hF hok f hf
  · rw [if_neg hwc] at hok
    rw [if_neg hwc]
    by_cases hmini : (event_type == some "MINISTORY") = true
    · rw [if_pos hmini] at hok
      rw [if_pos hmini]
      injection hok with hok
      subst hok
      rw [ministory_count event_id story_files f hF hf]
      cases hm : is_ministory_story_file f
      · simp [hm]
      · simp [hm]
    · rw [if_neg hmini] at hok
      rw [if_neg hmini]
      by_cases hact : (event_id == "act4d0" || event_id == "act6d5"
          || event_id == "act7d5") = true
      · rw [if_pos hact] at hok
        rw [if_pos hact]
        injection hok with hok
        subst hok
        rw [act4d0_count event_id (get_event_related_stages event_id stages)
          story_files f hF hf]
        cases hm : (pyStartsWith f ("level_" ++ event_id ++ "_st") && pyEndsWith f ".json"
            && (matchLevelStJson f).isSome)
        · simp [hm]
        · simp [hm]
      · rw [if_neg hact] at hok
        rw [if_neg hact, if_neg (by simp)]
        exact plainPath_count event_id stages story_files event_type out hK hF hV hok f hf

/-! ## Claim theorems -/

/-- C10: `topological_sort` is total.  For every finite dependency graph
(unique dict keys), including graphs with cycles: the embedded loop's fuel
suffices — giving it any larger fuel returns the same list, which is the
formal counterpart of termination of the Python `while` loop; the returned
list is duplicate-free and all its elements are graph keys; when no cycle
exists among the keys it contains every key exactly once; and when some key
is unprocessed the list is a strict subset (strictly shorter). -/
theorem C10_topological_sort_total (graph : List (String × List String))
    (hK : (alKeys graph).Nodup) :
    (∀ x ∈ topological_sort graph, x ∈ alKeys graph)
    ∧ (topological_sort graph).Nodup
    ∧ (∀ fuel : Nat, topoFuel graph ≤ fuel →
        topoLoop graph fuel (topoInitIndeg graph) (topoInitQueue graph) []
          = topological_sort graph)
    ∧ (AcyclicGraph graph → ∀ k ∈ alKeys graph, (topological_sort graph).count k = 1)
    ∧ ((∃ k ∈ alKeys graph, k ∉ topological_sort graph) →
        (topological_sort graph).length < (alKeys graph).length) := by
  obtain ⟨hnd, hsub, _⟩ := topological_sort_post graph hK
  refine ⟨hsub, hnd, ?_, ?_, ?_⟩
  · intro fuel hf
    have hst := topoLoop_fuel_stable graph (fuel - topoFuel graph)
    rwa [show topoFuel graph + (fuel - topoFuel graph) = fuel by omega] at hst
  · intro hacyc k hk
    exact List.count_eq_one_of_mem hnd (topological_sort_complete graph hK hacyc k hk)
  · rintro ⟨k, hk, hknot⟩
    exact topological_sort_strict graph hK k hk hknot

/-- C10 witness: the theorem instantiated at a concrete two-node graph, its
hypothesis discharged by computation. -/
theorem C10_topological_sort_total_witness :
    (alKeys c10Graph).Nodup
    ∧ ((∀ x ∈ topological_sort c10Graph, x ∈ alKeys c10Graph)
      ∧ (topological_sort c10Graph).Nodup
      ∧ (∀ fuel : Nat, topoFuel c10Graph ≤ fuel →
          topoLoop c10Graph fuel (topoInitIndeg c10Graph) (topoInitQueue c10Graph) []
            = topological_sort c10Graph)
      ∧ (AcyclicGraph c10Graph → ∀ k ∈ alKeys c10Graph,
          (topological_sort c10Graph).count k = 1)
      ∧ ((∃ k ∈ alKeys c10Graph, k ∉ topological_sort c10Graph) →
          (topological_sort c10Graph).length < (alKeys c10Graph).length)) :=
  ⟨by decide, C10_topological_sort_total c10Graph (by decide)⟩

/-- C8: the resolver is deterministic: two invocations on equal inputs
(stage table, word-count manifest, story filename list, event type) return
the identical sequence.  The embedding makes every input of the Python
function explicit — including the word-count manifest it reads from disk —
and models dict/set iteration with order-preserving lists, so the result is
a pure function of the listed inputs. -/
theorem C8_determinism (event_id : String) (stages : StageTable)
    (story_files : List String) (event_type : Option String)
    (wordcount_data : List (String × List String))
    (event_id2 : String) (stages2 : StageTable) (story_files2 : List String)
    (event_type2 : Option String) (wordcount_data2 : List (String × List String))
    (h1 : event_id = event_id2) (h2 : stages = stages2) (h3 : story_files = story_files2)
    (h4 : event_type = event_type2) (h5 : wordcount_data = wordcount_data2) :
    get_story_order_for_event event_id stages story_files event_type wordcount_data
      = get_story_order_for_event event_id2 stages2 story_files2 event_type2 wordcount_data2 := by
  subst h1 h2 h3 h4 h5
  rfl

/-- C8 witness: two runs on the concrete scenario inputs agree. -/
theorem C8_determinism_witness :
    get_story_order_for_event "evX" [("evX_01", evxStage)] c1Files none []
      = get_story_order_for_event "evX" [("evX_01", evxStage)] c1Files none [] :=
  C8_determinism "evX" [("evX_01", evxStage)] c1Files none []
    "evX" [("evX_01", evxStage)] c1Files none [] rfl rfl rfl rfl rfl

/-- C9: the classifier's key rewrites.  A post-battle (`_end`) filename whose
stage key (after removing `_end`) matches `(.+)_sub-(m)-(n)` is rewritten to
`<group1>_s<n zero-padded to two digits>`, and a story-only filename
containing `_hidden_st` and matching `(.+)_hidden_st(NN)` has its key
rewritten to the 0-indexed placeholder `story_<NN-1>`.  Stated about the
classification step before the explicit per-event (`act3d0`) remap table. -/
theorem C9_classifier_rewrites :
    (∀ (event_id : String) (event_type : Option String) (file_name p d1 d2 : String),
      pyContains (cleanBaseName file_name) "_beg" = false →
      pyContains (cleanBaseName file_name) "_end" = true →
      matchSubPattern (pyReplace (cleanBaseName file_name) "_end" "") = some (p, d1, d2) →
      classifyBase event_id event_type file_name = (p ++ "_s" ++ zfillTwo d2, "end"))
    ∧ (∀ (event_id : String) (event_type : Option String) (file_name p num : String),
      pyContains (cleanBaseName file_name) "_beg" = false →
      pyContains (cleanBaseName file_name) "_end" = false →
      pyContains (cleanBaseName file_name) "_hidden_st" = true →
      matchTailNum "_hidden_st" (cleanBaseName file_name) = some (p, num) →
      classifyBase event_id event_type file_name
        = ("story_" ++ toString ((natOfDigits num.data : Int) - 1), "story")) := by
  constructor
  · intro event_id event_type file_name p d1 d2 h1 h2 h3
    simp [classifyBase, h1, h2, h3]
  · intro event_id event_type file_name p num h1 h2 h3 h4
    simp [classifyBase, h1, h2, h3, h4]

/-- C9 witness: the two rewrites at the spec's example filenames:
`act11d0_sub-1-2_end` maps to stage key `act11d0_s02`, and `hidden_st01`
maps to `story_0`. -/
theorem C9_classifier_rewrites_witness :
    classifyBase "act11d0" none "level_act11d0_sub-1-2_end.json" = ("act11d0_s02", "end")
    ∧ classifyBase "act13side" none "level_act13side_hidden_st01.json" = ("story_0", "story") :=
  ⟨by
    have h := C9_classifier_rewrites.1 "act11d0" none "level_act11d0_sub-1-2_end.json"
      "act11d0" "1" "2" (by decide) (by decide) (by decide)
    rw [h]
    rfl,
   by
    have h := C9_classifier_rewrites.2 "act13side" none "level_act13side_hidden_st01.json"
      "act13side" "01" (by decide) (by decide) (by decide) (by decide)
    rw [h]
    rfl⟩

/-- C1 counterexample: on the spec's concrete scenario (stage table with
only `evX_01`, files beg/end/st01, no manifest entry, no special event
type) the resolver emits the story-only file LAST — it is unmatched by the
stage pool and goes through the leftover sweep — not first as the claim
states. -/
theorem C1_counterexample :
    resultFiles (get_story_order_for_event "evX" [("evX_01", evxStage)] c1Files none [])
      = some ["level_evX_01_beg.json", "level_evX_01_end.json", "level_evX_st01.json"]
    ∧ resultFiles (get_story_order_for_event "evX" [("evX_01", evxStage)] c1Files none [])
      ≠ some ["level_evX_st01.json", "level_evX_01_beg.json", "level_evX_01_end.json"] := by
  constructor
  · rfl
  · decide

/-- C1 amended: the scenario returns exactly the pre-battle file, then the
post-battle file (both on stage `evX_01`, battle entries), then the
story-only file on a synthesized virtual hidden-story stage appended by the
leftover sweep. -/
theorem C1_amended :
    get_story_order_for_event "evX" [("evX_01", evxStage)] c1Files none []
      = .ok [("level_evX_01_beg.json", evxStage, true),
             ("level_evX_01_end.json", evxStage, true),
             ("level_evX_st01.json", mkVirtualHidden "evX" "evX_st01" "EV-ST01", false)] := by
  rfl

/-- C5 counterexample: on the two-stage cycle scenario the unresolved files
are appended in alphabetical order (`ev_10` before `ev_2`), which differs
from the natural sort order the claim states. -/
theorem C5_counterexample :
    resultFiles (get_story_order_for_event "ev" c5Stages c5Files none [])
      = some ["level_ev_10_beg.json", "level_ev_2_beg.json"]
    ∧ sortNatural ["level_ev_10_beg.json", "level_ev_2_beg.json"]
      = ["level_ev_2_beg.json", "level_ev_10_beg.json"]
    ∧ resultFiles (get_story_order_for_event "ev" c5Stages c5Files none [])
      ≠ some (sortNatural ["level_ev_10_beg.json", "level_ev_2_beg.json"]) := by
  refine ⟨by rfl, by rfl, by decide⟩

/-- C5 amended: on the mutual-dependency cycle, resolution completes:
Kahn's sort returns the empty list (fewer nodes than the 2-node graph), and
both stages' story files still appear, appended by the leftover sweep in
alphabetical (code-point) order with their real stage records. -/
theorem C5_amended :
    topological_sort (build_stage_dependency_graph (get_event_related_stages "ev" c5Stages)) = []
    ∧ (build_stage_dependency_graph (get_event_related_stages "ev" c5Stages)).length = 2
    ∧ get_story_order_for_event "ev" c5Stages c5Files none []
        = .ok [("level_ev_10_beg.json", cycStage10, true), ("level_ev_2_beg.json", cycStage2, true)] := by
  refine ⟨by rfl, by rfl, by rfl⟩

/-- C6 counterexample: the resolver CAN raise.  For the unrecognized-shape
filename `level_story_abc.json` (with an empty stage table) the leftover
sweep reaches the `story_`-prefixed virtual-code branch and performs an
unguarded `int("abc")`, so the Python function raises `ValueError` instead
of returning — contradicting the claim's "never raises". -/
theorem C6_counterexample :
    get_story_order_for_event "qq" [] ["level_story_abc.json"] none [] = .error "ValueError" := by
  rfl

/-- C2 counterexample: for event `act4d0` the file `level_other_st01.json`
DOES match the `level_*_st<NN>.json` story pattern (it is accepted by the
ministory-pattern matcher), yet the resolver drops it — the act4d0 handler
additionally requires the `level_act4d0_st` event-specific name start — so
the claim's description of the excluded set is wrong. -/
theorem C2_counterexample :
    get_story_order_for_event "act4d0" [] ["level_other_st01.json"] none [] = .ok []
    ∧ is_ministory_story_file "level_other_st01.json" = true := by
  exact ⟨rfl, rfl⟩

/-- C7: natural-sort fallback.  When no stage in the event's pool has any
dependency (every dependency-graph entry is empty), the emitted stage order
is the natural (numeric-aware) sort of the whole pool; concretely, for
stages `ev_2, ev_10, ev_1` with no dependencies the stage order is
`ev_1, ev_2, ev_10` — not the lexicographic `ev_1, ev_10, ev_2` — and the
resolver emits the files in that stage order. -/
theorem C7_natural_sort_fallback :
    (∀ event_stages : StageTable,
      (∀ e ∈ build_stage_dependency_graph event_stages, e.2 = []) →
      computeOrderedStages event_stages = sortNatural (event_stages.map Prod.fst))
    ∧ computeOrderedStages (get_event_related_stages "ev" c7Stages) = ["ev_1", "ev_2", "ev_10"]
    ∧ ["ev_1", "ev_2", "ev_10"] ≠ sortLex ["ev_2", "ev_10", "ev_1"]
    ∧ resultFiles (get_story_order_for_event "ev" c7Stages c7Files none [])
      = some ["level_ev_1_beg.json", "level_ev_2_beg.json", "level_ev_10_beg.json"] := by
  refine ⟨?_, by rfl, by decide, by rfl⟩
  intro event_stages h
  exact computeOrderedStages_no_deps event_stages h

/-- C7 witness: the general statement instantiated on the concrete
dependency-free pool, with its hypothesis discharged by computation. -/
theorem C7_natural_sort_fallback_witness :
    (∀ e ∈ build_stage_dependency_graph (get_event_related_stages "ev" c7Stages), e.2 = [])
    ∧ computeOrderedStages (get_event_related_stages "ev" c7Stages)
      = sortNatural ((get_event_related_stages "ev" c7Stages).map Prod.fst) :=
  ⟨by decide, C7_natural_sort_fallback.1 (get_event_related_stages "ev" c7Stages) (by decide)⟩

/-- C3: when a word-count manifest entry exists for the event (the extracted
manifest order is non-empty), the resolver takes the wordcount path and the
output's file sequence is exactly the manifest-matched files in manifest key
order (first occurrence kept, empty names skipped) followed by the files
absent from the manifest in natural (numeric-aware) sort order. -/
theorem C3_priority (event_id : String) (stages : StageTable)
    (story_files : List String) (event_type : Option String)
    (wordcount_data : List (String × List String)) (out : List Entry)
    (hne : (get_event_story_order event_id wordcount_data).isEmpty = false)
    (hok : get_story_order_for_event event_id stages story_files event_type wordcount_data
        = .ok out) :
    out.map (fun e => e.1)
      = wcMatchedFiles event_id story_files (get_event_story_order event_id wordcount_data)
        ++ sortNatural (story_files.filter (fun f =>
            !(wcMatchedFiles event_id story_files
                (get_event_story_order event_id wordcount_data)).contains f)) := by
  unfold get_story_order_for_event at hok
  simp only [] at hok
  rw [hne] at hok
  simp only [Bool.not_false, if_true] at hok
  exact wordcount_files_eq event_id stages story_files
    (get_event_story_order event_id wordcount_data) event_type out hok

/-- C3 witness: manifest listing only the second of two files; the output
puts the matched file first and the unmatched file after it, matching the
theorem's description, and concretely equals
`["level_ev_02_beg.json", "level_ev_01_beg.json"]`. -/
theorem C3_priority_witness :
    (get_event_story_order "ev" c3Wcd).isEmpty = false
    ∧ ((get_story_order_for_event "ev" [] c3Files none c3Wcd).toOption.getD []).map
        (fun e => e.1)
      = wcMatchedFiles "ev" c3Files (get_event_story_order "ev" c3Wcd)
        ++ sortNatural (c3Files.filter (fun f =>
            !(wcMatchedFiles "ev" c3Files (get_event_story_order "ev" c3Wcd)).contains f))
    ∧ wcMatchedFiles "ev" c3Files (get_event_story_order "ev" c3Wcd)
        ++ sortNatural (c3Files.filter (fun f =>
            !(wcMatchedFiles "ev" c3Files (get_event_story_order "ev" c3Wcd)).contains f))
      = ["level_ev_02_beg.json", "level_ev_01_beg.json"] :=
  ⟨rfl, C3_priority "ev" [] c3Files none c3Wcd _ rfl rfl, by decide⟩

/-- C4 counterexample: the files `level_zz_hidden_st01.json` (story-only),
`level_story_0_beg.json` (pre-battle) and `level_story_0_end.json`
(post-battle) all map to the same stage key `story_0`; that stage is absent
from the pool, so all three are appended by the leftover sweep in
alphabetical order and the story-only file comes LAST, not first — the
emitted order is beg, end, story, violating the claimed tri-order. -/
theorem C4_counterexample :
    alGet (buildMapping "zz" none c4Files) "level_zz_hidden_st01.json"
        = some ("story_0", "story")
    ∧ alGet (buildMapping "zz" none c4Files) "level_story_0_beg.json"
        = some ("story_0", "beg")
    ∧ alGet (buildMapping "zz" none c4Files) "level_story_0_end.json"
        = some ("story_0", "end")
    ∧ (get_story_order_for_event "zz" [] c4Files none []).map
        (fun l => l.map (fun e => (e.1, e.2.2)))
      = .ok [("level_story_0_beg.json", true), ("level_story_0_end.json", true),
             ("level_zz_hidden_st01.json", false)]
    ∧ (get_story_order_for_event "zz" [] c4Files none []).map
        (fun l => l.map (fun e => e.2.1.stage_id))
      = .ok ["story_0", "story_0", "story_0"] :=
  ⟨rfl, rfl, rfl, rfl, rfl⟩

/-- C4 amended: the story→beg→end tri-order holds for stages emitted by the
sequenced stage loop, i.e. for a stage present in the event pool and in the
computed stage order (files mapped to stages outside the pool go through the
leftover sweep instead, which sorts alphabetically and does not respect the
tri-order): on the plain event path the three entries of such a stage appear
in the output in the relative order story-only, pre-battle, post-battle, and
the chapter variant's per-stage emission has the same shape. -/
theorem C4_amended :
    (∀ (event_id : String) (stages : StageTable) (story_files : List String)
       (event_type : Option String) (wordcount_data : List (String × List String))
       (out : List Entry) (s : String) (info : StageInfo) (sf bf ef : String),
      (get_event_story_order event_id wordcount_data).isEmpty = true →
      (event_type == some "MINISTORY") = false →
      (event_id == "act4d0" || event_id == "act6d5" || event_id == "act7d5") = false →
      get_story_order_for_event event_id stages story_files event_type wordcount_data
        = .ok out →
      alGet (get_event_related_stages event_id stages) s = some info →
      s ∈ computeOrderedStages (get_event_related_stages event_id stages) →
      (sf, (s, "story")) ∈ buildMapping event_id event_type story_files →
      begFileOf (buildMapping event_id event_type story_files) s = some bf →
      endFileOf (buildMapping event_id event_type story_files) s = some ef →
      List.Sublist [(sf, info, false), (bf, info, true), (ef, info, true)] out)
    ∧ (∀ (mapping : List (String × String × String)) (s : String) (info : StageInfo)
       (sf bf ef : String),
      (sf, (s, "story")) ∈ mapping →
      begFileOf mapping s = some bf → endFileOf mapping s = some ef →
      List.Sublist [(sf, info, false), (bf, info, true), (ef, info, true)]
        (emitForStageMain mapping s info)) := by
  constructor
  · intro event_id stages story_files event_type wordcount_data out s info sf bf ef
      hwc hmini hact hok hs hord hsf hbf hef
    unfold get_story_order_for_event at hok
    simp only [] at hok
    rw [hwc] at hok
    simp only [Bool.not_true, Bool.false_eq_true, if_false] at hok
    rw [hmini] at hok
    simp only [Bool.false_eq_true, if_false] at hok
    rw [hact] at hok
    simp only [Bool.false_eq_true, if_false] at hok
    obtain ⟨es, ho, -⟩ := appendEntriesM_ok _
      (leftoverEntry_fst event_id (get_event_related_stages event_id stages)
        (buildMapping event_id event_type story_files)) _ _ _ hok
    rw [ho]
    exact ((triple_sublist_emitForStage event_id _ s info sf bf ef hsf hbf hef).trans
      (emitForStage_sublist_emitStages event_id _ _ _ s info hs hord)).trans
      (List.sublist_append_left _ _)
  · intro mapping s info sf bf ef hsf hbf hef
    exact triple_sublist_emitForStageMain mapping s info sf bf ef hsf hbf hef

/-- C4 witness: on the pool stage `ee_01` with all three files, the resolver
emits story, beg, end in order; and the chapter per-stage emission does the
same on a concrete mapping. -/
theorem C4_amended_witness :
    List.Sublist
      [("level_ee_01.json", eeStage, false), ("level_ee_01_beg.json", eeStage, true),
       ("level_ee_01_end.json", eeStage, true)]
      ((get_story_order_for_event "ee" [("ee_01", eeStage)] c4wFiles none
          []).toOption.getD [])
    ∧ List.Sublist
      [("a.json", eeStage, false), ("b.json", eeStage, true), ("c.json", eeStage, true)]
      (emitForStageMain
        [("a.json", ("s1", "story")), ("b.json", ("s1", "beg")), ("c.json", ("s1", "end"))]
        "s1" eeStage) :=
  ⟨C4_amended.1 "ee" [("ee_01", eeStage)] c4wFiles none [] _ "ee_01" eeStage
      "level_ee_01.json" "level_ee_01_beg.json" "level_ee_01_end.json"
      rfl rfl rfl rfl (by decide) (by decide) (by decide) (by decide) (by decide),
   C4_amended.2 _ "s1" eeStage "a.json" "b.json" "c.json" (by decide) rfl rfl⟩

/-- C2 amended: when the resolver succeeds, every input filename appears in
the returned sequence exactly once, except the filenames excluded by the
event-type rules: on the MINISTORY path files not matching
`level_*_st<NN>.json`, and on the act4d0/act6d5/act7d5 path files not
matching the stricter event-specific pattern
`level_<event_id>_st…` with `.json` suffix and a digit run (these appear
zero times).  Assumes Python-dict-unique stage keys, distinct input
filenames, and no input filename starting with `virtual_` (which would
collide with the act9d0 virtual placeholder names). -/
theorem C2_amended (event_id : String) (stages : StageTable) (story_files : List String)
    (event_type : Option String) (wordcount_data : List (String × List String))
    (out : List Entry) (hK : (stages.map Prod.fst).Nodup) (hF : story_files.Nodup)
    (hV : ∀ f ∈ story_files, pyStartsWith f "virtual_" = false)
    (hok : get_story_order_for_event event_id stages story_files event_type wordcount_data
        = .ok out) :
    ∀ f ∈ story_files,
      (out.map (fun e => e.1)).count f
        = if droppedByEventRules event_id event_type wordcount_data f = true then 0
          else 1 :=
  resolver_count event_id stages story_files event_type wordcount_data out hK hF hV hok

/-- C2 witness: on the concrete three-file pool-stage scenario every file
appears exactly once (none are dropped on the plain path). -/
theorem C2_amended_witness :
    (((get_story_order_for_event "ee" [("ee_01", eeStage)] c4wFiles none
          []).toOption.getD []).map (fun e => e.1)).count "level_ee_01.json"
      = if droppedByEventRules "ee" none [] "level_ee_01.json" = true then 0 else 1 :=
  C2_amended "ee" [("ee_01", eeStage)] c4wFiles none [] _ (by decide) (by decide)
    (by decide) rfl "level_ee_01.json" (by decide)

/-- C6 amended: a filename with none of the recognized tokens (`_beg`,
`_end`, `_hidden_st`, `_st`) is classified as phase `story` — not `unknown`
— with the cleaned remainder (minus `level_` and `.json`) as the stage key;
and when resolution succeeds, every non-dropped input file is still present
in the output (the leftover sweep emits unmatched files).  The "never
raises" half of the original claim is false: see the counterexample, where
the unguarded `int()` in the leftover sweep raises `ValueError`. -/
theorem C6_amended :
    (∀ (event_id : String) (event_type : Option String) (file_name : String),
      pyContains (cleanBaseName file_name) "_beg" = false →
      pyContains (cleanBaseName file_name) "_end" = false →
      pyContains (cleanBaseName file_name) "_hidden_st" = false →
      pyContains (cleanBaseName file_name) "_st" = false →
      classifyBase event_id event_type file_name = (cleanBaseName file_name, "story"))
    ∧ (∀ (event_id : String) (stages : StageTable) (story_files : List String)
        (event_type : Option String) (wordcount_data : List (String × List String))
        (out : List Entry),
      (stages.map Prod.fst).Nodup → story_files.Nodup →
      (∀ f ∈ story_files, pyStartsWith f "virtual_" = false) →
      get_story_order_for_event event_id stages story_files event_type wordcount_data
        = .ok out →
      ∀ f ∈ story_files, droppedByEventRules event_id event_type wordcount_data f = false →
        f ∈ out.map (fun e => e.1)) := by
  constructor
  · intro event_id event_type file_name hbeg hend hhid hst
    unfold classifyBase
    simp only [hbeg, hend, hhid, hst, Bool.false_eq_true, if_false, Bool.and_false,
      Bool.false_and]
  · intro event_id stages story_files event_type wordcount_data out hK hF hV hok f hf hnd
    have hc := resolver_count event_id stages story_files event_type wordcount_data out
      hK hF hV hok f hf
    rw [hnd] at hc
    simp only [Bool.false_eq_true, if_false] at hc
    exact List.count_pos_iff.mp (by omega)

/-- C6 witness: the token-free filename `level_weird.json` classifies as
`("weird", "story")`, and on a concrete run it is emitted (via the leftover
sweep, since the stage pool is empty). -/
theorem C6_amended_witness :
    classifyBase "zz" none "level_weird.json" = ("weird", "story")
    ∧ "level_weird.json"
      ∈ ((get_story_order_for_event "zz" [] ["level_weird.json"] none
          []).toOption.getD []).map (fun e => e.1) :=
  ⟨C6_amended.1 "zz" none "level_weird.json" rfl rfl rfl rfl,
   C6_amended.2 "zz" [] ["level_weird.json"] none [] _ (by decide) (by decide) (by decide)
     rfl "level_weird.json" (by decide) rfl⟩

end AstrHtml
